import Mathlib

/-!
Verification of the sparse voxel octree core of the voxel-ecs repository
(`src/core/voxel/octree.ts`: `Voxel`, `OctreeNode`, `VoxelOctree`).

The TypeScript source is shallowly embedded: JavaScript numbers are modelled
as exact rationals `ℚ` (all coordinate arithmetic appearing in the source is
addition, subtraction and halving of small dyadic values, on which float64
arithmetic is exact), object mutation is modelled by state-passing functions
that rebuild the tree, and nullable values become `Option`.

Rational arithmetic from Batteries (`Rat.add` etc.) is `@[irreducible]`, which
blocks kernel evaluation on concrete inputs.  We therefore perform coordinate
arithmetic through the kernel-computable wrappers `qadd`, `qsub`, `qhalf`,
each proved equal to the corresponding standard operation on `ℚ` right below
its definition.
-/

/-- Kernel-computable addition on `ℚ` (see `qadd_eq`). -/
def qadd (a b : ℚ) : ℚ := Rat.divInt (a.num * b.den + b.num * a.den) ((a.den : ℤ) * b.den)

/-- Kernel-computable subtraction on `ℚ` (see `qsub_eq`). -/
def qsub (a b : ℚ) : ℚ := Rat.divInt (a.num * b.den - b.num * a.den) ((a.den : ℤ) * b.den)

/-- Kernel-computable halving on `ℚ` (see `qhalf_eq`). -/
def qhalf (a : ℚ) : ℚ := Rat.divInt a.num (2 * (a.den : ℤ))

/-- Embedding of `gl-matrix` `vec3` as used by the octree: three exact
rational coordinates. -/
structure Vec3 where
  x : ℚ
  y : ℚ
  z : ℚ
deriving DecidableEq, Repr

/-- Embedding of the 4-component `color` array `[r, g, b, a]`. -/
structure RGBA where
  r : ℚ
  g : ℚ
  b : ℚ
  a : ℚ
deriving DecidableEq, Repr

/-- Embedding of `interface Voxel { material; color; active }`. -/
structure Voxel where
  material : ℤ
  color : RGBA
  active : Bool
deriving DecidableEq, Repr

/-- Embedding of `class OctreeNode`.  `children` is `none` when the node has
never been subdivided (the source's `null`); `subdivide()` is the only writer
of the field and always installs all 8 children, so the slots are modelled as
a plain list. -/
inductive OctreeNode : Type where
  | mk (position : Vec3) (size : ℚ) (depth : Nat) (maxDepth : Nat)
      (children : Option (List OctreeNode)) (voxel : Option Voxel)

def OctreeNode.position : OctreeNode → Vec3
  | .mk p _ _ _ _ _ => p

def OctreeNode.size : OctreeNode → ℚ
  | .mk _ s _ _ _ _ => s

def OctreeNode.depth : OctreeNode → Nat
  | .mk _ _ d _ _ _ => d

def OctreeNode.maxDepth : OctreeNode → Nat
  | .mk _ _ _ md _ _ => md

def OctreeNode.children : OctreeNode → Option (List OctreeNode)
  | .mk _ _ _ _ c _ => c

def OctreeNode.voxel : OctreeNode → Option Voxel
  | .mk _ _ _ _ _ v => v

/-- Embedding of `OctreeNode.containsPoint`: membership of the half-open cube
`[position, position + size)` on all three axes. -/
def OctreeNode.containsPoint (n : OctreeNode) (p : Vec3) : Bool :=
  decide (p.x ≥ n.position.x) && decide (p.x < qadd n.position.x n.size) &&
  decide (p.y ≥ n.position.y) && decide (p.y < qadd n.position.y n.size) &&
  decide (p.z ≥ n.position.z) && decide (p.z < qadd n.position.z n.size)

/-- Embedding of `OctreeNode.getChildIndexForPosition`: octant index with
bit 0 = X ≥ mid, bit 1 = Y ≥ mid, bit 2 = Z ≥ mid (`index |= ...` on disjoint
bits is addition). -/
def OctreeNode.getChildIndexForPosition (n : OctreeNode) (p : Vec3) : Nat :=
  let halfSize := qhalf n.size
  (if p.x ≥ qadd n.position.x halfSize then 1 else 0) +
  (if p.y ≥ qadd n.position.y halfSize then 2 else 0) +
  (if p.z ≥ qadd n.position.z halfSize then 4 else 0)

mutual

/-- Embedding of `OctreeNode.getVoxel`: out of bounds gives `none`; a node at
max depth or holding a direct voxel answers with its own voxel; otherwise the
lookup recurses into the octant child when children exist. -/
def OctreeNode.getVoxel : OctreeNode → Vec3 → Option Voxel
  | n@(.mk _ _ d md children voxel), p =>
    if ¬ n.containsPoint p then none
    else if d = md ∨ voxel.isSome then voxel
    else
      match children with
      | some cs => OctreeNode.getVoxelInList cs (n.getChildIndexForPosition p) p
      | none => none

/-- List companion of `OctreeNode.getVoxel`, realising
`this.children[childIndex]?.getVoxel(position) ?? null`. -/
def OctreeNode.getVoxelInList : List OctreeNode → Nat → Vec3 → Option Voxel
  | [], _, _ => none
  | c :: _, 0, p => c.getVoxel p
  | _ :: cs, i + 1, p => OctreeNode.getVoxelInList cs i p

end

/-- The six axis-aligned unit offsets tested by `hasExposedFaces`, in source
order. -/
def neighborOffsets : List Vec3 :=
  [⟨1, 0, 0⟩, ⟨-1, 0, 0⟩, ⟨0, 1, 0⟩, ⟨0, -1, 0⟩, ⟨0, 0, 1⟩, ⟨0, 0, -1⟩]

/-- Embedding of `OctreeNode.hasExposedFaces`: true iff some unit-offset
neighbor position of `p` has no voxel, where each lookup goes through the
receiver node's own `getVoxel` (not through the owning tree). -/
def OctreeNode.hasExposedFaces (n : OctreeNode) (p : Vec3) : Bool :=
  neighborOffsets.any fun o =>
    (n.getVoxel ⟨qadd p.x o.x, qadd p.y o.y, qadd p.z o.z⟩).isNone

/-- Membership of the half-open cube with minimum corner `pos` and edge
length `s` (specification-side restatement of `containsPoint`; stated through
`qadd` so that it is kernel-decidable, and characterised through standard
rational arithmetic by `inRegion_iff`). -/
def inRegion (pos : Vec3) (s : ℚ) (p : Vec3) : Prop :=
  pos.x ≤ p.x ∧ p.x < qadd pos.x s ∧ pos.y ≤ p.y ∧ p.y < qadd pos.y s ∧
  pos.z ≤ p.z ∧ p.z < qadd pos.z s

instance (pos : Vec3) (s : ℚ) (p : Vec3) : Decidable (inRegion pos s p) := by
  unfold inRegion; infer_instance

/-- Minimum corner of child octant `i` as computed by `subdivide()`. -/
def childPosition (position : Vec3) (size : ℚ) (i : Nat) : Vec3 :=
  ⟨qadd position.x (if i &&& 1 ≠ 0 then qhalf size else 0),
   qadd position.y (if i &&& 2 ≠ 0 then qhalf size else 0),
   qadd position.z (if i &&& 4 ≠ 0 then qhalf size else 0)⟩

/-- Embedding of `OctreeNode.subdivide`: the 8 fresh children it installs. -/
def subdivideChildren (position : Vec3) (size : ℚ) (depth maxDepth : Nat) :
    List OctreeNode :=
  (List.range 8).map fun i =>
    OctreeNode.mk (childPosition position size i) (qhalf size) (depth + 1) maxDepth none none

/-- Embedding of `OctreeNode.setVoxel`.  The source recursion descends one
depth level per call and, on trees built through the public API, stops at
`depth = maxDepth`; `gas` bounds the recursion depth so the function is total
(`VoxelOctree.setVoxel` supplies `maxDepth + 1`, which never runs out on
API-built trees). -/
def OctreeNode.setVoxelAux : Nat → OctreeNode → Vec3 → Option Voxel → OctreeNode
  | 0, n, _, _ => n
  | gas + 1, n@(.mk position size d md children voxel), p, v =>
    if ¬ n.containsPoint p then n
    else if d = md then .mk position size d md children v
    else
      let children' :=
        if children.isNone ∧ v.isSome then some (subdivideChildren position size d md)
        else children
      match children' with
      | some cs =>
        let i := n.getChildIndexForPosition p
        match cs.get? i with
        | some c => .mk position size d md (some (cs.set i (OctreeNode.setVoxelAux gas c p v))) voxel
        | none => .mk position size d md (some cs) voxel
      | none => .mk position size d md children v

mutual

/-- Embedding of `OctreeNode.updateVoxelActive`: the source mutates the voxel
object returned by `getVoxel`, i.e. the voxel of the node at which the lookup
terminates; we rebuild the tree along that lookup path. -/
def OctreeNode.updateVoxelActive : OctreeNode → Vec3 → Bool → OctreeNode
  | n@(.mk position size d md children voxel), p, b =>
    if ¬ n.containsPoint p then n
    else if d = md ∨ voxel.isSome then
      .mk position size d md children (voxel.map fun v => { v with active := b })
    else
      match children with
      | some cs =>
        .mk position size d md
          (some (OctreeNode.updateVoxelActiveList cs (n.getChildIndexForPosition p) p b)) voxel
      | none => n

/-- List companion of `OctreeNode.updateVoxelActive`. -/
def OctreeNode.updateVoxelActiveList : List OctreeNode → Nat → Vec3 → Bool → List OctreeNode
  | [], _, _, _ => []
  | c :: cs, 0, p, b => c.updateVoxelActive p b :: cs
  | c :: cs, i + 1, p, b => c :: OctreeNode.updateVoxelActiveList cs i p b

end

/-- Visit condition of `OctreeNode.traverse`: a true leaf, or a childless node
holding a direct voxel. -/
def OctreeNode.visited (n : OctreeNode) : Bool :=
  decide (n.depth = n.maxDepth) || (n.voxel.isSome && n.children.isNone)

mutual

/-- Embedding of `OctreeNode.traverse`: the list of nodes passed to the
visitor, in depth-first pre-order. -/
def OctreeNode.traverseList : OctreeNode → List OctreeNode
  | n@(.mk _ _ _ _ children _) =>
    (if n.visited then [n] else []) ++
    (match children with
     | some cs => OctreeNode.traverseListL cs
     | none => [])

/-- List companion of `OctreeNode.traverseList`. -/
def OctreeNode.traverseListL : List OctreeNode → List OctreeNode
  | [] => []
  | c :: cs => c.traverseList ++ OctreeNode.traverseListL cs

end

mutual

/-- Every node of the tree, in depth-first pre-order (a specification-side
enumeration used to state properties of `traverse`). -/
def OctreeNode.allNodes : OctreeNode → List OctreeNode
  | n@(.mk _ _ _ _ children _) =>
    n :: (match children with
          | some cs => OctreeNode.allNodesL cs
          | none => [])

/-- List companion of `OctreeNode.allNodes`. -/
def OctreeNode.allNodesL : List OctreeNode → List OctreeNode
  | [] => []
  | c :: cs => c.allNodes ++ OctreeNode.allNodesL cs

end

mutual

/-- Embedding of the traversal callback of `VoxelOctree.updateActiveStates`
applied over the whole tree: at every visited node holding a voxel, the voxel's
`active` flag is recomputed as `node.hasExposedFaces(node.position)` (the
lookup receiver being the visited node itself, exactly as in the source). -/
def OctreeNode.updateActivePass : OctreeNode → OctreeNode
  | n@(.mk position size d md children voxel) =>
    let voxel' :=
      if n.visited then
        match n.getVoxel n.position with
        | some _ => voxel.map fun v => { v with active := n.hasExposedFaces n.position }
        | none => voxel
      else voxel
    .mk position size d md
      (match children with
       | some cs => some (OctreeNode.updateActivePassL cs)
       | none => none) voxel'

/-- List companion of `OctreeNode.updateActivePass`. -/
def OctreeNode.updateActivePassL : List OctreeNode → List OctreeNode
  | [] => []
  | c :: cs => c.updateActivePass :: OctreeNode.updateActivePassL cs

end

/-- One vertex record of `getVertices()`: position then color, 7 floats. -/
def vertexRecord (p : Vec3) (c : RGBA) : List ℚ :=
  [p.x, p.y, p.z, c.r, c.g, c.b, c.a]

/-- One visible face of `getVertices()`: two triangles fan-split as
`[0,1,2]` and `[0,2,3]` over the four corners, 6 vertex records. -/
def faceRecords (v0 v1 v2 v3 : Vec3) (c : RGBA) : List ℚ :=
  vertexRecord v0 c ++ vertexRecord v1 c ++ vertexRecord v2 c ++
  vertexRecord v0 c ++ vertexRecord v2 c ++ vertexRecord v3 c

/-- Embedding of the per-node body of the `getVertices()` traversal callback:
for a visited node holding an active voxel, emit the six faces (front, back,
top, bottom, right, left, in source order) whose neighbor lookup against the
whole tree (`root`) finds no voxel. -/
def emitNode (root n : OctreeNode) : List ℚ :=
  match n.getVoxel n.position with
  | some v =>
    if v.active then
      let x := n.position.x
      let y := n.position.y
      let z := n.position.z
      let s := n.size
      let c := v.color
      (if (root.getVoxel ⟨x, y, qsub z 1⟩).isNone then
        faceRecords ⟨x, y, z⟩ ⟨qadd x s, y, z⟩ ⟨qadd x s, qadd y s, z⟩ ⟨x, qadd y s, z⟩ c
      else []) ++
      (if (root.getVoxel ⟨x, y, qadd z s⟩).isNone then
        faceRecords ⟨qadd x s, y, qadd z s⟩ ⟨x, y, qadd z s⟩ ⟨x, qadd y s, qadd z s⟩
          ⟨qadd x s, qadd y s, qadd z s⟩ c
      else []) ++
      (if (root.getVoxel ⟨x, qadd y s, z⟩).isNone then
        faceRecords ⟨x, qadd y s, z⟩ ⟨qadd x s, qadd y s, z⟩ ⟨qadd x s, qadd y s, qadd z s⟩
          ⟨x, qadd y s, qadd z s⟩ c
      else []) ++
      (if (root.getVoxel ⟨x, qsub y 1, z⟩).isNone then
        faceRecords ⟨x, y, qadd z s⟩ ⟨qadd x s, y, qadd z s⟩ ⟨qadd x s, y, z⟩ ⟨x, y, z⟩ c
      else []) ++
      (if (root.getVoxel ⟨qadd x s, y, z⟩).isNone then
        faceRecords ⟨qadd x s, y, z⟩ ⟨qadd x s, y, qadd z s⟩ ⟨qadd x s, qadd y s, qadd z s⟩
          ⟨qadd x s, qadd y s, z⟩ c
      else []) ++
      (if (root.getVoxel ⟨qsub x 1, y, z⟩).isNone then
        faceRecords ⟨x, y, qadd z s⟩ ⟨x, y, z⟩ ⟨x, qadd y s, z⟩ ⟨x, qadd y s, qadd z s⟩ c
      else [])
    else []
  | none => []

/-- Embedding of `class VoxelOctree`: the owner of the root node. -/
structure VoxelOctree where
  root : OctreeNode

/-- Embedding of the `VoxelOctree` constructor: a fresh root of edge length
`size` with minimum corner `(-size/2, -size/2, -size/2)`, depth 0. -/
def VoxelOctree.create (size : ℚ) (maxDepth : Nat) : VoxelOctree :=
  ⟨.mk ⟨qhalf (-size), qhalf (-size), qhalf (-size)⟩ size 0 maxDepth none none⟩

def VoxelOctree.getSize (t : VoxelOctree) : ℚ := t.root.size

def VoxelOctree.getMaxDepth (t : VoxelOctree) : Nat := t.root.maxDepth

/-- Embedding of `VoxelOctree.setVoxel` (delegation to the root). -/
def VoxelOctree.setVoxel (t : VoxelOctree) (p : Vec3) (v : Option Voxel) : VoxelOctree :=
  ⟨OctreeNode.setVoxelAux (t.root.maxDepth + 1) t.root p v⟩

/-- Embedding of `VoxelOctree.getVoxel` (delegation to the root). -/
def VoxelOctree.getVoxel (t : VoxelOctree) (p : Vec3) : Option Voxel :=
  t.root.getVoxel p

/-- Embedding of `VoxelOctree.updateActiveStates`. -/
def VoxelOctree.updateActiveStates (t : VoxelOctree) : VoxelOctree :=
  ⟨t.root.updateActivePass⟩

/-- Embedding of `VoxelOctree.clear`: a freshly constructed root of identical
size and max depth. -/
def VoxelOctree.clear (t : VoxelOctree) : VoxelOctree :=
  VoxelOctree.create t.root.size t.root.maxDepth

/-- Embedding of `VoxelOctree.getVertices` as the emitted list of floats. -/
def VoxelOctree.verticesList (t : VoxelOctree) : List ℚ :=
  (t.root.traverseList.map (emitNode t.root)).flatten

mutual

/-- Structural well-formedness of a node, true of every node reachable through
the `VoxelOctree` API (for positive construction size): positive size, depth
at most `maxDepth`, no children at `maxDepth`, no direct voxel strictly below
`maxDepth`, and, when subdivided, exactly the 8 children laid out by
`subdivide()` (octant `i` at `childPosition`, half size, depth + 1, same
`maxDepth`), each well-formed. -/
def OctreeNode.wfB : OctreeNode → Bool
  | .mk position size d md children voxel =>
    decide (0 < size) && decide (d ≤ md) &&
    (match children with
     | some cs => decide (d ≠ md) && OctreeNode.wfChildrenB position size d md 0 cs
     | none => true) &&
    (decide (d = md) || voxel.isNone)

/-- List companion of `OctreeNode.wfB`: the elements from accumulator index
`k` onward fill the octant slots `k, k+1, ...` up to 8. -/
def OctreeNode.wfChildrenB : Vec3 → ℚ → Nat → Nat → Nat → List OctreeNode → Bool
  | _, _, _, _, k, [] => decide (k = 8)
  | position, size, d, md, k, c :: cs =>
    decide (c.position = childPosition position size k) && decide (c.size = qhalf size) &&
    decide (c.depth = d + 1) && decide (c.maxDepth = md) && c.wfB &&
    OctreeNode.wfChildrenB position size d md (k + 1) cs

end

mutual

/-- The staged-voxel invariant of claim C9: every node strictly below
`maxDepth` holds no direct voxel. -/
def OctreeNode.noStagedB : OctreeNode → Bool
  | .mk _ _ d md children voxel =>
    (!decide (d < md) || voxel.isNone) &&
    (match children with
     | some cs => OctreeNode.noStagedL cs
     | none => true)

/-- List companion of `OctreeNode.noStagedB`. -/
def OctreeNode.noStagedL : List OctreeNode → Bool
  | [] => true
  | c :: cs => c.noStagedB && OctreeNode.noStagedL cs

end

/-- States reachable from a freshly constructed `VoxelOctree` through its
public API.  `getVoxel`, `traverse` and `getVertices` are read-only in the
embedding (the frame theorem for claim C10 shows the source agrees), so they
contribute no transitions. -/
inductive Reachable : VoxelOctree → Prop where
  | create (size : ℚ) (maxDepth : Nat) : Reachable (VoxelOctree.create size maxDepth)
  | set {t : VoxelOctree} (p : Vec3) (v : Option Voxel) :
      Reachable t → Reachable (t.setVoxel p v)
  | update {t : VoxelOctree} : Reachable t → Reachable t.updateActiveStates
  | clear {t : VoxelOctree} : Reachable t → Reachable t.clear

mutual

/-- State-passing variant of `OctreeNode.getVoxel` for the frame claim C10:
the recursion rebuilds the receiver from the recursive results, so any
mutation performed by a recursive call would surface in the returned node. -/
def OctreeNode.getVoxelS : OctreeNode → Vec3 → Option Voxel × OctreeNode
  | n@(.mk position size d md children voxel), p =>
    if ¬ n.containsPoint p then (none, n)
    else if d = md ∨ voxel.isSome then (voxel, n)
    else
      match children with
      | some cs =>
        let r := OctreeNode.getVoxelSL cs (n.getChildIndexForPosition p) p
        (r.1, .mk position size d md (some r.2) voxel)
      | none => (none, n)

/-- List companion of `OctreeNode.getVoxelS`. -/
def OctreeNode.getVoxelSL : List OctreeNode → Nat → Vec3 → Option Voxel × List OctreeNode
  | [], _, _ => (none, [])
  | c :: cs, 0, p => let r := c.getVoxelS p; (r.1, r.2 :: cs)
  | c :: cs, i + 1, p => let r := OctreeNode.getVoxelSL cs i p; (r.1, c :: r.2)

end

/-- State-passing loop of `hasExposedFaces` over the six neighbor offsets,
threading the receiver node through each lookup and stopping at the first
empty neighbor, as the source loop does. -/
def OctreeNode.exposedLoopS : List Vec3 → OctreeNode → Vec3 → Bool × OctreeNode
  | [], n, _ => (false, n)
  | o :: os, n, p =>
    let r := n.getVoxelS ⟨qadd p.x o.x, qadd p.y o.y, qadd p.z o.z⟩
    if r.1.isNone then (true, r.2)
    else OctreeNode.exposedLoopS os r.2 p

/-- State-passing variant of `OctreeNode.hasExposedFaces` for claim C10. -/
def OctreeNode.hasExposedFacesS (n : OctreeNode) (p : Vec3) : Bool × OctreeNode :=
  OctreeNode.exposedLoopS neighborOffsets n p

/-- State-passing variant of the `getVertices()` callback body for claim C10:
the tree (`root`) is threaded through the six whole-tree visibility lookups in
source evaluation order (front, back, top, bottom, right, left). -/
def emitNodeS (n : OctreeNode) (root : OctreeNode) : List ℚ × OctreeNode :=
  match n.getVoxel n.position with
  | some v =>
    if v.active then
      let x := n.position.x
      let y := n.position.y
      let z := n.position.z
      let s := n.size
      let c := v.color
      let r1 := root.getVoxelS ⟨x, y, qsub z 1⟩
      let r2 := r1.2.getVoxelS ⟨x, y, qadd z s⟩
      let r3 := r2.2.getVoxelS ⟨x, qadd y s, z⟩
      let r4 := r3.2.getVoxelS ⟨x, qsub y 1, z⟩
      let r5 := r4.2.getVoxelS ⟨qadd x s, y, z⟩
      let r6 := r5.2.getVoxelS ⟨qsub x 1, y, z⟩
      ((if r1.1.isNone then
          faceRecords ⟨x, y, z⟩ ⟨qadd x s, y, z⟩ ⟨qadd x s, qadd y s, z⟩ ⟨x, qadd y s, z⟩ c
        else []) ++
       (if r2.1.isNone then
          faceRecords ⟨qadd x s, y, qadd z s⟩ ⟨x, y, qadd z s⟩ ⟨x, qadd y s, qadd z s⟩
            ⟨qadd x s, qadd y s, qadd z s⟩ c
        else []) ++
       (if r3.1.isNone then
          faceRecords ⟨x, qadd y s, z⟩ ⟨qadd x s, qadd y s, z⟩ ⟨qadd x s, qadd y s, qadd z s⟩
            ⟨x, qadd y s, qadd z s⟩ c
        else []) ++
       (if r4.1.isNone then
          faceRecords ⟨x, y, qadd z s⟩ ⟨qadd x s, y, qadd z s⟩ ⟨qadd x s, y, z⟩ ⟨x, y, z⟩ c
        else []) ++
       (if r5.1.isNone then
          faceRecords ⟨qadd x s, y, z⟩ ⟨qadd x s, y, qadd z s⟩ ⟨qadd x s, qadd y s, qadd z s⟩
            ⟨qadd x s, qadd y s, z⟩ c
        else []) ++
       (if r6.1.isNone then
          faceRecords ⟨x, y, qadd z s⟩ ⟨x, y, z⟩ ⟨x, qadd y s, z⟩ ⟨x, qadd y s, qadd z s⟩ c
        else []), r6.2)
    else ([], root)
  | none => ([], root)

/-- State-passing traversal loop of `getVertices()` for claim C10. -/
def verticesLoopS : List OctreeNode → OctreeNode → List ℚ × OctreeNode
  | [], root => ([], root)
  | n :: ns, root =>
    let r := emitNodeS n root
    let rest := verticesLoopS ns r.2
    (r.1 ++ rest.1, rest.2)

/-- State-passing variant of `VoxelOctree.getVertices` for claim C10. -/
def VoxelOctree.getVerticesS (t : VoxelOctree) : List ℚ × VoxelOctree :=
  let r := verticesLoopS t.root.traverseList t.root
  (r.1, ⟨r.2⟩)

/-- A solid red voxel marked active. -/
def redVoxel : Voxel := ⟨1, ⟨1, 0, 0, 1⟩, true⟩

/-- A solid red voxel marked inactive. -/
def inactiveVoxel : Voxel := ⟨1, ⟨1, 0, 0, 1⟩, false⟩

/-- Concrete octree of size 4, max depth 2 (unit leaf granularity) holding a
single active voxel at the origin. -/
def singleVoxelTree : VoxelOctree :=
  (VoxelOctree.create 4 2).setVoxel ⟨0, 0, 0⟩ (some redVoxel)

/-- Concrete octree of size 4, max depth 2 holding an inactive voxel at the
origin and active voxels at all six of its unit neighbors. -/
def surroundedTree : VoxelOctree :=
  ((((((((VoxelOctree.create 4 2).setVoxel ⟨0, 0, 0⟩ (some inactiveVoxel)).setVoxel
    ⟨1, 0, 0⟩ (some redVoxel)).setVoxel ⟨-1, 0, 0⟩ (some redVoxel)).setVoxel
    ⟨0, 1, 0⟩ (some redVoxel)).setVoxel ⟨0, -1, 0⟩ (some redVoxel)).setVoxel
    ⟨0, 0, 1⟩ (some redVoxel)).setVoxel ⟨0, 0, -1⟩ (some redVoxel))

mutual

/-- Structural induction principle for the nested `OctreeNode` type: to prove
`motive n` for all nodes it suffices to handle `mk` given the property for all
elements of the child list. -/
def OctreeNode.inductionOn {motive : OctreeNode → Prop}
    (step : ∀ position size depth maxDepth children voxel,
      (∀ cs, children = some cs → ∀ c ∈ cs, motive c) →
      motive (.mk position size depth maxDepth children voxel)) :
    ∀ n, motive n
  | .mk position size d md children voxel =>
    match children with
    | some cs =>
      step position size d md (some cs) voxel (fun cs' hcs c hc => by
        cases hcs
        exact OctreeNode.inductionOnL step cs c hc)
    | none =>
      step position size d md none voxel (fun cs' hcs => by cases hcs)

/-- List companion of `OctreeNode.inductionOn`. -/
def OctreeNode.inductionOnL {motive : OctreeNode → Prop}
    (step : ∀ position size depth maxDepth children voxel,
      (∀ cs, children = some cs → ∀ c ∈ cs, motive c) →
      motive (.mk position size depth maxDepth children voxel)) :
    ∀ cs : List OctreeNode, ∀ c ∈ cs, motive c
  | [], c, hc => absurd hc (List.not_mem_nil c)
  | c0 :: cs, c, hc => by
    rcases List.mem_cons.mp hc with h | h
    · exact h ▸ OctreeNode.inductionOn step c0
    · exact OctreeNode.inductionOnL step cs c h

end

/-!
Theorems.  First the correctness of the kernel-computable rational wrappers,
then general-purpose lemmas about the embedding, then one theorem per claim
(with witnesses and counterexamples where required).
-/

theorem qadd_eq (a b : ℚ) : qadd a b = a + b := by
  have ha : ((a.den : ℤ)) ≠ 0 := by exact_mod_cast a.den_nz
  have hb : ((b.den : ℤ)) ≠ 0 := by exact_mod_cast b.den_nz
  conv_rhs => rw [← Rat.num_divInt_den a, ← Rat.num_divInt_den b]
  rw [Rat.divInt_add_divInt _ _ ha hb, qadd]

theorem qsub_eq (a b : ℚ) : qsub a b = a - b := by
  have ha : ((a.den : ℤ)) ≠ 0 := by exact_mod_cast a.den_nz
  have hb : ((b.den : ℤ)) ≠ 0 := by exact_mod_cast b.den_nz
  conv_rhs => rw [← Rat.num_divInt_den a, ← Rat.num_divInt_den b]
  rw [Rat.divInt_sub_divInt _ _ ha hb, qsub]

theorem qhalf_eq (a : ℚ) : qhalf a = a / 2 := by
  have ha : ((a.den : ℚ)) ≠ 0 := by exact_mod_cast a.den_nz
  rw [qhalf, Rat.divInt_eq_div]
  conv_rhs => rw [← Rat.num_div_den a]
  push_cast
  rw [div_div, mul_comm]

theorem qhalf_add_qhalf (a : ℚ) : qhalf a + qhalf a = a := by
  rw [qhalf_eq]; ring

@[simp] theorem OctreeNode.position_mk (position : Vec3) (size : ℚ) (d md : Nat)
    (children : Option (List OctreeNode)) (voxel : Option Voxel) :
    (OctreeNode.mk position size d md children voxel).position = position := rfl

@[simp] theorem OctreeNode.size_mk (position : Vec3) (size : ℚ) (d md : Nat)
    (children : Option (List OctreeNode)) (voxel : Option Voxel) :
    (OctreeNode.mk position size d md children voxel).size = size := rfl

@[simp] theorem OctreeNode.depth_mk (position : Vec3) (size : ℚ) (d md : Nat)
    (children : Option (List OctreeNode)) (voxel : Option Voxel) :
    (OctreeNode.mk position size d md children voxel).depth = d := rfl

@[simp] theorem OctreeNode.maxDepth_mk (position : Vec3) (size : ℚ) (d md : Nat)
    (children : Option (List OctreeNode)) (voxel : Option Voxel) :
    (OctreeNode.mk position size d md children voxel).maxDepth = md := rfl

@[simp] theorem OctreeNode.children_mk (position : Vec3) (size : ℚ) (d md : Nat)
    (children : Option (List OctreeNode)) (voxel : Option Voxel) :
    (OctreeNode.mk position size d md children voxel).children = children := rfl

@[simp] theorem OctreeNode.voxel_mk (position : Vec3) (size : ℚ) (d md : Nat)
    (children : Option (List OctreeNode)) (voxel : Option Voxel) :
    (OctreeNode.mk position size d md children voxel).voxel = voxel := rfl

theorem OctreeNode.eta (n : OctreeNode) :
    OctreeNode.mk n.position n.size n.depth n.maxDepth n.children n.voxel = n := by
  cases n; rfl

/-- The half-open cube membership behind `containsPoint`, as a proposition. -/
theorem OctreeNode.containsPoint_iff (n : OctreeNode) (p : Vec3) :
    n.containsPoint p = true ↔
      n.position.x ≤ p.x ∧ p.x < n.position.x + n.size ∧
      n.position.y ≤ p.y ∧ p.y < n.position.y + n.size ∧
      n.position.z ≤ p.z ∧ p.z < n.position.z + n.size := by
  simp [OctreeNode.containsPoint, qadd_eq, ge_iff_le, and_assoc]

theorem OctreeNode.getChildIndexForPosition_lt_8 (n : OctreeNode) (p : Vec3) :
    n.getChildIndexForPosition p < 8 := by
  simp only [OctreeNode.getChildIndexForPosition]
  split_ifs <;> norm_num

theorem OctreeNode.getVoxelInList_eq (cs : List OctreeNode) (i : Nat) (p : Vec3) :
    OctreeNode.getVoxelInList cs i p =
      match cs.get? i with
      | some c => c.getVoxel p
      | none => none := by
  induction cs generalizing i with
  | nil => cases i <;> rfl
  | cons c cs ih => cases i with
    | zero => rfl
    | succ j => simpa [OctreeNode.getVoxelInList] using ih j

theorem OctreeNode.updateVoxelActiveList_eq (cs : List OctreeNode) (i : Nat) (p : Vec3)
    (b : Bool) :
    OctreeNode.updateVoxelActiveList cs i p b =
      match cs.get? i with
      | some c => cs.set i (c.updateVoxelActive p b)
      | none => cs := by
  induction cs generalizing i with
  | nil => cases i <;> rfl
  | cons c cs ih =>
    cases i with
    | zero => rfl
    | succ j =>
      show c :: OctreeNode.updateVoxelActiveList cs j p b = _
      rw [ih j]
      cases h : cs[j]? <;> simp [h]

theorem OctreeNode.traverseListL_eq (cs : List OctreeNode) :
    OctreeNode.traverseListL cs = (cs.map OctreeNode.traverseList).flatten := by
  induction cs with
  | nil => rfl
  | cons c cs ih => simp [OctreeNode.traverseListL, ih]

theorem OctreeNode.allNodesL_eq (cs : List OctreeNode) :
    OctreeNode.allNodesL cs = (cs.map OctreeNode.allNodes).flatten := by
  induction cs with
  | nil => rfl
  | cons c cs ih => simp [OctreeNode.allNodesL, ih]

theorem OctreeNode.updateActivePassL_eq (cs : List OctreeNode) :
    OctreeNode.updateActivePassL cs = cs.map OctreeNode.updateActivePass := by
  induction cs with
  | nil => rfl
  | cons c cs ih => simp [OctreeNode.updateActivePassL, ih]

theorem OctreeNode.noStagedL_eq (cs : List OctreeNode) :
    OctreeNode.noStagedL cs = cs.all OctreeNode.noStagedB := by
  induction cs with
  | nil => rfl
  | cons c cs ih => simp [OctreeNode.noStagedL, ih]

theorem subdivideChildren_get? (position : Vec3) (size : ℚ) (d md : Nat) (i : Nat)
    (hi : i < 8) :
    (subdivideChildren position size d md).get? i =
      some (.mk (childPosition position size i) (qhalf size) (d + 1) md none none) := by
  simp [subdivideChildren, List.get?_eq_getElem?, List.getElem?_map, List.getElem?_range hi]

theorem subdivideChildren_length (position : Vec3) (size : ℚ) (d md : Nat) :
    (subdivideChildren position size d md).length = 8 := by
  simp [subdivideChildren]

theorem inRegion_iff (pos : Vec3) (s : ℚ) (p : Vec3) :
    inRegion pos s p ↔
      pos.x ≤ p.x ∧ p.x < pos.x + s ∧ pos.y ≤ p.y ∧ p.y < pos.y + s ∧
      pos.z ≤ p.z ∧ p.z < pos.z + s := by
  simp [inRegion, qadd_eq]

theorem OctreeNode.containsPoint_iff_inRegion (n : OctreeNode) (p : Vec3) :
    n.containsPoint p = true ↔ inRegion n.position n.size p := by
  rw [OctreeNode.containsPoint_iff, inRegion_iff]

/-- The octant selected by `getChildIndexForPosition` contains every in-bounds
point that selects it: lookup and subdivision placement agree. -/
theorem OctreeNode.inRegion_child (n : OctreeNode) (p : Vec3)
    (h : inRegion n.position n.size p) :
    inRegion (childPosition n.position n.size (n.getChildIndexForPosition p))
      (qhalf n.size) p := by
  rw [inRegion_iff] at h
  obtain ⟨hx1, hx2, hy1, hy2, hz1, hz2⟩ := h
  have hs : qhalf n.size + qhalf n.size = n.size := qhalf_add_qhalf n.size
  rw [qhalf_eq] at hs
  simp only [OctreeNode.getChildIndexForPosition, qadd_eq, qhalf_eq, ge_iff_le]
  split_ifs with h1 h2 h3 <;>
    (simp +decide only [childPosition, qadd_eq, qhalf_eq, inRegion, ne_eq, if_true, if_false]
     refine ⟨by linarith, by linarith, by linarith, by linarith, by linarith, by linarith⟩)

/-- Lookup is consistent with subdivision placement: any point of child
octant `i`'s region selects index `i`. -/
theorem OctreeNode.childIndex_eq_of_inRegion (n : OctreeNode) (i : Nat) (hi : i < 8)
    (p : Vec3) (h : inRegion (childPosition n.position n.size i) (qhalf n.size) p) :
    n.getChildIndexForPosition p = i := by
  have hs : qhalf n.size + qhalf n.size = n.size := qhalf_add_qhalf n.size
  rw [qhalf_eq] at hs
  interval_cases i <;>
    (simp +decide only [childPosition, qadd_eq, qhalf_eq, inRegion, ne_eq, if_true, if_false,
       add_zero] at h
     obtain ⟨hx1, hx2, hy1, hy2, hz1, hz2⟩ := h
     simp only [OctreeNode.getChildIndexForPosition, qadd_eq, qhalf_eq, ge_iff_le]
     split_ifs <;> first | omega | (exfalso; linarith))

/-- Child octant regions are contained in the parent region. -/
theorem inRegion_parent_of_child (pos : Vec3) (s : ℚ) (i : Nat) (hi : i < 8) (p : Vec3)
    (hs : 0 < s) (h : inRegion (childPosition pos s i) (qhalf s) p) :
    inRegion pos s p := by
  have hs2 : qhalf s + qhalf s = s := qhalf_add_qhalf s
  rw [qhalf_eq] at hs2
  have hs3 : 0 < s / 2 := by linarith
  interval_cases i <;>
    (simp +decide only [childPosition, qadd_eq, qhalf_eq, inRegion, ne_eq, if_true, if_false,
       add_zero] at h ⊢
     obtain ⟨hx1, hx2, hy1, hy2, hz1, hz2⟩ := h
     refine ⟨by linarith, by linarith, by linarith, by linarith, by linarith, by linarith⟩)

/-- Unpacking of `wfChildrenB`: the list fills octant slots `k` to `7` with
well-formed children shaped like `subdivide()` output. -/
theorem OctreeNode.wfChildrenB_iff (cs : List OctreeNode) (position : Vec3) (size : ℚ)
    (d md k : Nat) :
    OctreeNode.wfChildrenB position size d md k cs = true ↔
      (k + cs.length = 8 ∧ ∀ j c, cs.get? j = some c →
        c.position = childPosition position size (k + j) ∧ c.size = qhalf size ∧
        c.depth = d + 1 ∧ c.maxDepth = md ∧ c.wfB = true) := by
  induction cs generalizing k with
  | nil =>
    simp [OctreeNode.wfChildrenB]
  | cons c cs ih =>
    simp only [OctreeNode.wfChildrenB, Bool.and_eq_true, decide_eq_true_eq, ih (k + 1)]
    constructor
    · rintro ⟨⟨⟨⟨⟨hp, hs⟩, hd⟩, hm⟩, hw⟩, hlen, hrest⟩
      refine ⟨by simpa [Nat.add_comm, Nat.add_assoc, Nat.add_left_comm] using hlen, ?_⟩
      rintro j c' hj
      cases j with
      | zero =>
        cases hj
        exact ⟨by simpa using hp, hs, hd, hm, hw⟩
      | succ j' =>
        have := hrest j' c' (by simpa using hj)
        simpa [Nat.add_comm, Nat.add_assoc, Nat.add_left_comm] using this
    · rintro ⟨hlen, hall⟩
      have h0 := hall 0 c rfl
      refine ⟨⟨⟨⟨⟨by simpa using h0.1, h0.2.1⟩, h0.2.2.1⟩, h0.2.2.2.1⟩, h0.2.2.2.2⟩,
        by simp only [List.length_cons] at hlen; omega, ?_⟩
      rintro j c' hj
      have := hall (j + 1) c' (by simpa using hj)
      simpa [Nat.add_comm, Nat.add_assoc, Nat.add_left_comm] using this

/-- Unpacking of `wfB` at a constructed node. -/
theorem OctreeNode.wfB_mk_iff (position : Vec3) (size : ℚ) (d md : Nat)
    (children : Option (List OctreeNode)) (voxel : Option Voxel) :
    (OctreeNode.mk position size d md children voxel).wfB = true ↔
      0 < size ∧ d ≤ md ∧
      (∀ cs, children = some cs →
        d ≠ md ∧ OctreeNode.wfChildrenB position size d md 0 cs = true) ∧
      (d = md ∨ voxel = none) := by
  cases children <;> cases voxel <;>
    simp [OctreeNode.wfB, and_assoc, Option.isNone_iff_eq_none]

theorem OctreeNode.wfB_children_length {position : Vec3} {size : ℚ} {d md : Nat}
    {cs : List OctreeNode} {voxel : Option Voxel}
    (h : (OctreeNode.mk position size d md (some cs) voxel).wfB = true) :
    cs.length = 8 := by
  have := ((OctreeNode.wfB_mk_iff _ _ _ _ _ _).mp h).2.2.1 cs rfl
  have := ((OctreeNode.wfChildrenB_iff _ _ _ _ _ _).mp this.2).1
  omega

theorem OctreeNode.wfB_child {position : Vec3} {size : ℚ} {d md : Nat}
    {cs : List OctreeNode} {voxel : Option Voxel}
    (h : (OctreeNode.mk position size d md (some cs) voxel).wfB = true)
    {i : Nat} {c : OctreeNode} (hc : cs.get? i = some c) :
    c.position = childPosition position size i ∧ c.size = qhalf size ∧
    c.depth = d + 1 ∧ c.maxDepth = md ∧ c.wfB = true ∧ i < 8 := by
  have hw := ((OctreeNode.wfB_mk_iff _ _ _ _ _ _).mp h).2.2.1 cs rfl
  have hlen : cs.length = 8 := OctreeNode.wfB_children_length h
  have hi : i < 8 := by
    rcases List.get?_eq_some.mp hc with ⟨h, _⟩
    omega
  have := ((OctreeNode.wfChildrenB_iff _ _ _ _ _ _).mp hw.2).2 i c hc
  simp only [Nat.zero_add] at this
  exact ⟨this.1, this.2.1, this.2.2.1, this.2.2.2.1, this.2.2.2.2, hi⟩

theorem OctreeNode.wfChildrenB_subdivide (position : Vec3) (size : ℚ) (d md : Nat)
    (hs : 0 < size) (hd : d < md) :
    OctreeNode.wfChildrenB position size d md 0 (subdivideChildren position size d md) = true := by
  rw [OctreeNode.wfChildrenB_iff]
  refine ⟨by simp [subdivideChildren], ?_⟩
  intro j c hj
  have hjlt : j < 8 := by
    rcases List.get?_eq_some.mp hj with ⟨h, _⟩
    simpa [subdivideChildren] using h
  rw [subdivideChildren_get? _ _ _ _ _ hjlt] at hj
  cases hj
  have hhalf : 0 < qhalf size := by rw [qhalf_eq]; linarith
  refine ⟨by simp, by simp, by simp, by simp, ?_⟩
  rw [OctreeNode.wfB_mk_iff]
  exact ⟨hhalf, by omega, by simp, by by_cases h : d + 1 = md <;> simp [h]⟩

theorem OctreeNode.getVoxel_mk (position : Vec3) (size : ℚ) (d md : Nat)
    (children : Option (List OctreeNode)) (voxel : Option Voxel) (p : Vec3) :
    (OctreeNode.mk position size d md children voxel).getVoxel p =
      if ¬ (OctreeNode.mk position size d md children voxel).containsPoint p then none
      else if d = md ∨ voxel.isSome then voxel
      else
        match children with
        | some cs => OctreeNode.getVoxelInList cs
            ((OctreeNode.mk position size d md children voxel).getChildIndexForPosition p) p
        | none => none := by
  cases children <;> rfl

theorem OctreeNode.traverseList_mk (position : Vec3) (size : ℚ) (d md : Nat)
    (children : Option (List OctreeNode)) (voxel : Option Voxel) :
    (OctreeNode.mk position size d md children voxel).traverseList =
      (if (OctreeNode.mk position size d md children voxel).visited
       then [OctreeNode.mk position size d md children voxel] else []) ++
      (match children with
       | some cs => OctreeNode.traverseListL cs
       | none => []) := by
  cases children <;> rfl

theorem OctreeNode.containsPoint_false_of_not_inRegion {n : OctreeNode} {p : Vec3}
    (h : ¬ inRegion n.position n.size p) : n.containsPoint p = false := by
  cases hcp : n.containsPoint p with
  | false => rfl
  | true => exact absurd ((OctreeNode.containsPoint_iff_inRegion _ _).mp hcp) h

/-- C6: for every position `p` outside the root's half-open bounds
`[position, position + size)` on some axis (`containsPoint` false, see
`OctreeNode.containsPoint_iff_inRegion`), `setVoxel(p, v)` is a no-op (the
tree is unchanged, hence every in-bounds `getVoxel` query is unchanged), and
`getVoxel(p)` returns the empty marker. -/
theorem setVoxel_out_of_bounds_noop (t : VoxelOctree) (p : Vec3) (v : Option Voxel)
    (h : t.root.containsPoint p = false) :
    t.setVoxel p v = t ∧ (∀ q, (t.setVoxel p v).getVoxel q = t.getVoxel q) ∧
    t.getVoxel p = none := by
  obtain ⟨root⟩ := t
  cases root with
  | mk position size d md children voxel =>
    have hset : OctreeNode.setVoxelAux (md + 1) (.mk position size d md children voxel) p v
        = .mk position size d md children voxel := by
      simp only [OctreeNode.setVoxelAux]
      simp [h]
    refine ⟨?_, ?_, ?_⟩
    · show (⟨OctreeNode.setVoxelAux (md + 1) _ p v⟩ : VoxelOctree) = _
      rw [hset]
    · intro q
      show (OctreeNode.setVoxelAux (md + 1) _ p v).getVoxel q =
        (OctreeNode.mk position size d md children voxel).getVoxel q
      rw [hset]
    · show (OctreeNode.mk position size d md children voxel).getVoxel p = none
      rw [OctreeNode.getVoxel_mk]
      simp [h]

/-- Witness for C6 at a concrete tree and out-of-bounds position. -/
theorem setVoxel_out_of_bounds_noop_witness :
    (VoxelOctree.create 4 2).root.containsPoint ⟨5, 0, 0⟩ = false ∧
    ((VoxelOctree.create 4 2).setVoxel ⟨5, 0, 0⟩ (some redVoxel) = VoxelOctree.create 4 2 ∧
     (∀ q, ((VoxelOctree.create 4 2).setVoxel ⟨5, 0, 0⟩ (some redVoxel)).getVoxel q =
        (VoxelOctree.create 4 2).getVoxel q) ∧
     (VoxelOctree.create 4 2).getVoxel ⟨5, 0, 0⟩ = none) :=
  ⟨by decide, setVoxel_out_of_bounds_noop (VoxelOctree.create 4 2) ⟨5, 0, 0⟩ (some redVoxel)
    (by decide)⟩

/-- C7: after `clear()`, `getVoxel` returns the empty marker at every position
(in particular every previously-set one), `getVertices()` is empty, and
`getSize()`/`getMaxDepth()` are unchanged. -/
theorem clear_resets (t : VoxelOctree) (p : Vec3) :
    t.clear.getVoxel p = none ∧ t.clear.verticesList = [] ∧
    t.clear.getSize = t.getSize ∧ t.clear.getMaxDepth = t.getMaxDepth := by
  have hget : ∀ q : Vec3, t.clear.getVoxel q = none := by
    intro q
    show (OctreeNode.mk _ _ 0 _ none none).getVoxel q = none
    rw [OctreeNode.getVoxel_mk]
    split_ifs <;> rfl
  refine ⟨hget p, ?_, rfl, rfl⟩
  show (VoxelOctree.verticesList ⟨_⟩) = []
  rw [VoxelOctree.verticesList]
  have htrav := OctreeNode.traverseList_mk
    ⟨qhalf (-t.root.size), qhalf (-t.root.size), qhalf (-t.root.size)⟩ t.root.size 0
    t.root.maxDepth none none
  simp only at htrav
  by_cases hv : (OctreeNode.mk ⟨qhalf (-t.root.size), qhalf (-t.root.size), qhalf (-t.root.size)⟩
      t.root.size 0 t.root.maxDepth none none).visited
  · have : emitNode
        (OctreeNode.mk ⟨qhalf (-t.root.size), qhalf (-t.root.size), qhalf (-t.root.size)⟩
          t.root.size 0 t.root.maxDepth none none)
        (OctreeNode.mk ⟨qhalf (-t.root.size), qhalf (-t.root.size), qhalf (-t.root.size)⟩
          t.root.size 0 t.root.maxDepth none none) = [] := by
      rw [emitNode]
      rw [show (OctreeNode.mk ⟨qhalf (-t.root.size), qhalf (-t.root.size), qhalf (-t.root.size)⟩
          t.root.size 0 t.root.maxDepth none none).getVoxel
          (OctreeNode.mk ⟨qhalf (-t.root.size), qhalf (-t.root.size), qhalf (-t.root.size)⟩
          t.root.size 0 t.root.maxDepth none none).position = none from by
        rw [OctreeNode.getVoxel_mk]; split_ifs <;> rfl]
    show ((OctreeNode.traverseList _).map _).flatten = []
    rw [htrav, if_pos hv]
    simp [this]
  · show ((OctreeNode.traverseList _).map _).flatten = []
    rw [htrav, if_neg hv]
    simp

/-- C8: `subdivide()` allocates exactly 8 children, each with half the
parent's edge length and depth `parent depth + 1`, placed at every
low-half/high-half combination per axis with bit 0 encoding X, bit 1 encoding
Y, bit 2 encoding Z; and the placement is consistent with lookup: every point
of child `i`'s half-open region selects child index `i`. -/
theorem subdivide_places_children (n : OctreeNode) (i : Nat) (p : Vec3)
    (hi : i < 8)
    (hp : inRegion (childPosition n.position n.size i) (qhalf n.size) p) :
    (subdivideChildren n.position n.size n.depth n.maxDepth).length = 8 ∧
    (subdivideChildren n.position n.size n.depth n.maxDepth).get? i =
      some (OctreeNode.mk
        ⟨n.position.x + (if i &&& 1 ≠ 0 then n.size / 2 else 0),
         n.position.y + (if i &&& 2 ≠ 0 then n.size / 2 else 0),
         n.position.z + (if i &&& 4 ≠ 0 then n.size / 2 else 0)⟩
        (n.size / 2) (n.depth + 1) n.maxDepth none none) ∧
    n.getChildIndexForPosition p = i := by
  refine ⟨subdivideChildren_length _ _ _ _, ?_,
    OctreeNode.childIndex_eq_of_inRegion n i hi p hp⟩
  rw [subdivideChildren_get? _ _ _ _ _ hi]
  simp [childPosition, qadd_eq, qhalf_eq]

/-- Witness for C8: octant 5 of the concrete root of a size-4 tree, with an
interior point of that octant. -/
theorem subdivide_places_children_witness :
    5 < 8 ∧
    inRegion
      (childPosition (VoxelOctree.create 4 2).root.position (VoxelOctree.create 4 2).root.size 5)
      (qhalf (VoxelOctree.create 4 2).root.size) ⟨1, -1, 1⟩ ∧
    ((subdivideChildren (VoxelOctree.create 4 2).root.position (VoxelOctree.create 4 2).root.size
        (VoxelOctree.create 4 2).root.depth (VoxelOctree.create 4 2).root.maxDepth).length = 8 ∧
     (subdivideChildren (VoxelOctree.create 4 2).root.position (VoxelOctree.create 4 2).root.size
        (VoxelOctree.create 4 2).root.depth (VoxelOctree.create 4 2).root.maxDepth).get? 5 =
      some (OctreeNode.mk
        ⟨(VoxelOctree.create 4 2).root.position.x +
            (if 5 &&& 1 ≠ 0 then (VoxelOctree.create 4 2).root.size / 2 else 0),
         (VoxelOctree.create 4 2).root.position.y +
            (if 5 &&& 2 ≠ 0 then (VoxelOctree.create 4 2).root.size / 2 else 0),
         (VoxelOctree.create 4 2).root.position.z +
            (if 5 &&& 4 ≠ 0 then (VoxelOctree.create 4 2).root.size / 2 else 0)⟩
        ((VoxelOctree.create 4 2).root.size / 2) ((VoxelOctree.create 4 2).root.depth + 1)
        (VoxelOctree.create 4 2).root.maxDepth none none) ∧
     (VoxelOctree.create 4 2).root.getChildIndexForPosition ⟨1, -1, 1⟩ = 5) :=
  ⟨by decide, by decide,
    subdivide_places_children (VoxelOctree.create 4 2).root 5 ⟨1, -1, 1⟩ (by decide) (by decide)⟩

theorem OctreeNode.getVoxelS_mk (position : Vec3) (size : ℚ) (d md : Nat)
    (children : Option (List OctreeNode)) (voxel : Option Voxel) (p : Vec3) :
    (OctreeNode.mk position size d md children voxel).getVoxelS p =
      if ¬ (OctreeNode.mk position size d md children voxel).containsPoint p then
        (none, OctreeNode.mk position size d md children voxel)
      else if d = md ∨ voxel.isSome then (voxel, OctreeNode.mk position size d md children voxel)
      else
        match children with
        | some cs =>
          let r := OctreeNode.getVoxelSL cs
            ((OctreeNode.mk position size d md children voxel).getChildIndexForPosition p) p
          (r.1, OctreeNode.mk position size d md (some r.2) voxel)
        | none => (none, OctreeNode.mk position size d md children voxel) := by
  cases children <;> rfl

theorem OctreeNode.getVoxelSL_eq (cs : List OctreeNode)
    (h : ∀ c ∈ cs, ∀ p : Vec3, c.getVoxelS p = (c.getVoxel p, c)) (i : Nat) (p : Vec3) :
    OctreeNode.getVoxelSL cs i p = (OctreeNode.getVoxelInList cs i p, cs) := by
  induction cs generalizing i with
  | nil => cases i <;> rfl
  | cons c cs ih =>
    cases i with
    | zero =>
      show (let r := c.getVoxelS p; (r.1, r.2 :: cs)) = _
      rw [h c (List.mem_cons_self c cs)]
      rfl
    | succ j =>
      show (let r := OctreeNode.getVoxelSL cs j p; (r.1, c :: r.2)) = _
      rw [ih (fun c' hc' => h c' (List.mem_cons_of_mem c hc')) j]
      rfl

/-- The state-passing `getVoxel` returns its result together with the
unchanged receiver: lookups never mutate the tree. -/
theorem OctreeNode.getVoxelS_eq (n : OctreeNode) : ∀ p : Vec3,
    n.getVoxelS p = (n.getVoxel p, n) := by
  induction n using OctreeNode.inductionOn with
  | step position size d md children voxel ih =>
  intro p
  rw [OctreeNode.getVoxelS_mk, OctreeNode.getVoxel_mk]
  split_ifs with h1 h2 <;>
    first
      | rfl
      | (cases children with
         | some cs =>
           simp only [OctreeNode.getVoxelSL_eq cs (fun c hc p' => ih cs rfl c hc p')]
         | none => rfl)

theorem OctreeNode.exposedLoopS_eq (os : List Vec3) (n : OctreeNode) (p : Vec3) :
    OctreeNode.exposedLoopS os n p =
      ((os.any fun o => (n.getVoxel ⟨qadd p.x o.x, qadd p.y o.y, qadd p.z o.z⟩).isNone), n) := by
  induction os with
  | nil => rfl
  | cons o os ih =>
    show (let r := n.getVoxelS ⟨qadd p.x o.x, qadd p.y o.y, qadd p.z o.z⟩;
      if r.1.isNone then (true, r.2) else OctreeNode.exposedLoopS os r.2 p) = _
    rw [OctreeNode.getVoxelS_eq]
    by_cases h : (n.getVoxel ⟨qadd p.x o.x, qadd p.y o.y, qadd p.z o.z⟩).isNone <;>
      simp [h, ih]

theorem OctreeNode.hasExposedFacesS_eq (n : OctreeNode) (p : Vec3) :
    n.hasExposedFacesS p = (n.hasExposedFaces p, n) :=
  OctreeNode.exposedLoopS_eq neighborOffsets n p

theorem emitNodeS_eq (n root : OctreeNode) :
    emitNodeS n root = (emitNode root n, root) := by
  rw [emitNodeS, emitNode]
  cases hv : n.getVoxel n.position with
  | none => rfl
  | some v =>
    by_cases ha : v.active <;> simp [ha, OctreeNode.getVoxelS_eq]

theorem verticesLoopS_eq (ns : List OctreeNode) (root : OctreeNode) :
    verticesLoopS ns root = ((ns.map (emitNode root)).flatten, root) := by
  induction ns with
  | nil => rfl
  | cons n ns ih =>
    show (let r := emitNodeS n root; let rest := verticesLoopS ns r.2;
      (r.1 ++ rest.1, rest.2)) = _
    rw [emitNodeS_eq]
    simp [ih]

/-- C10: `getVoxel`, `hasExposedFaces` and `getVertices` never modify the
octree.  In the state-passing embedding, where every recursive call and every
neighbor lookup threads the tree state through and rebuilds it from the
results, each of the three operations returns the state it was given,
unchanged — in particular a lookup at an unsubdivided region never triggers
subdivision. -/
theorem read_operations_frame (n : OctreeNode) (p : Vec3) (t : VoxelOctree) :
    n.getVoxelS p = (n.getVoxel p, n) ∧
    n.hasExposedFacesS p = (n.hasExposedFaces p, n) ∧
    t.getVerticesS = (t.verticesList, t) := by
  refine ⟨OctreeNode.getVoxelS_eq n p, OctreeNode.hasExposedFacesS_eq n p, ?_⟩
  obtain ⟨root⟩ := t
  show (let r := verticesLoopS root.traverseList root; (r.1, (⟨r.2⟩ : VoxelOctree))) = _
  rw [verticesLoopS_eq]
  rfl

theorem OctreeNode.noStagedB_mk (position : Vec3) (size : ℚ) (d md : Nat)
    (children : Option (List OctreeNode)) (voxel : Option Voxel) :
    (OctreeNode.mk position size d md children voxel).noStagedB = true ↔
      (d < md → voxel = none) ∧
      (∀ cs, children = some cs → ∀ c ∈ cs, c.noStagedB = true) := by
  cases children <;>
    simp [OctreeNode.noStagedB, OctreeNode.noStagedL_eq, List.all_eq_true,
      Option.isNone_iff_eq_none, Decidable.imp_iff_not_or]

theorem OctreeNode.noStagedB_subdivide (position : Vec3) (size : ℚ) (d md : Nat) :
    ∀ c ∈ subdivideChildren position size d md, c.noStagedB = true := by
  intro c hc
  simp only [subdivideChildren, List.mem_map, List.mem_range] at hc
  obtain ⟨i, _, rfl⟩ := hc
  rw [OctreeNode.noStagedB_mk]
  exact ⟨fun _ => rfl, fun cs hcs => by cases hcs⟩

theorem OctreeNode.setVoxelAux_succ (gas : Nat) (position : Vec3) (size : ℚ) (d md : Nat)
    (children : Option (List OctreeNode)) (voxel : Option Voxel) (p : Vec3) (v : Option Voxel) :
    OctreeNode.setVoxelAux (gas + 1) (.mk position size d md children voxel) p v =
      if ¬ (OctreeNode.mk position size d md children voxel).containsPoint p then
        .mk position size d md children voxel
      else if d = md then .mk position size d md children v
      else
        match (if children.isNone ∧ v.isSome then some (subdivideChildren position size d md)
               else children) with
        | some cs =>
          match cs.get? ((OctreeNode.mk position size d md children voxel).getChildIndexForPosition p) with
          | some c =>
            .mk position size d md
              (some (cs.set ((OctreeNode.mk position size d md children voxel).getChildIndexForPosition p)
                (OctreeNode.setVoxelAux gas c p v))) voxel
          | none => .mk position size d md (some cs) voxel
        | none => .mk position size d md children v := rfl

theorem OctreeNode.noStagedB_setVoxelAux (gas : Nat) :
    ∀ (n : OctreeNode) (p : Vec3) (v : Option Voxel), n.noStagedB = true →
      (OctreeNode.setVoxelAux gas n p v).noStagedB = true := by
  induction gas with
  | zero => exact fun n p v h => h
  | succ gas ih =>
    intro n p v h
    cases n with
    | mk position size d md children voxel =>
      rw [OctreeNode.noStagedB_mk] at h
      rw [OctreeNode.setVoxelAux_succ]
      by_cases h1 : (OctreeNode.mk position size d md children voxel).containsPoint p = true
      · rw [if_neg (not_not_intro h1)]
        by_cases h2 : d = md
        · rw [if_pos h2]
          rw [OctreeNode.noStagedB_mk]
          exact ⟨fun hlt => absurd h2 (by omega), h.2⟩
        · rw [if_neg h2]
          by_cases h3 : children.isNone = true ∧ v.isSome = true
          · rw [if_pos h3]
            cases hget : (subdivideChildren position size d md).get?
                ((OctreeNode.mk position size d md children voxel).getChildIndexForPosition p) with
            | none =>
              simp only [hget]
              rw [OctreeNode.noStagedB_mk]
              exact ⟨h.1, fun cs hcs' => by
                cases hcs'
                exact OctreeNode.noStagedB_subdivide position size d md⟩
            | some c =>
              simp only [hget]
              rw [OctreeNode.noStagedB_mk]
              refine ⟨h.1, fun cs hcs' => ?_⟩
              cases hcs'
              intro c' hc'
              rcases List.mem_or_eq_of_mem_set hc' with hmem | rfl
              · exact OctreeNode.noStagedB_subdivide position size d md c' hmem
              · exact ih c p v
                  (OctreeNode.noStagedB_subdivide position size d md c
                    (List.get?_mem hget))
          · rw [if_neg h3]
            cases children with
            | some cs =>
              cases hget : cs.get?
                  ((OctreeNode.mk position size d md (some cs) voxel).getChildIndexForPosition p) with
              | none =>
                simp only [hget]
                rw [OctreeNode.noStagedB_mk]
                exact ⟨h.1, fun cs' hcs' => by cases hcs'; exact h.2 cs rfl⟩
              | some c =>
                simp only [hget]
                rw [OctreeNode.noStagedB_mk]
                refine ⟨h.1, fun cs' hcs' => ?_⟩
                cases hcs'
                intro c' hc'
                rcases List.mem_or_eq_of_mem_set hc' with hmem | rfl
                · exact h.2 cs rfl c' hmem
                · exact ih c p v (h.2 cs rfl c (List.get?_mem hget))
            | none =>
              have hv : v = none := by
                by_cases hv' : v.isSome
                · exact absurd ⟨rfl, hv'⟩ h3
                · simpa [Option.not_isSome_iff_eq_none] using hv'
              rw [OctreeNode.noStagedB_mk]
              exact ⟨fun _ => hv, h.2⟩
      · rw [if_pos (by simpa using h1)]
        rw [OctreeNode.noStagedB_mk]
        exact h

theorem OctreeNode.updateActivePass_mk (position : Vec3) (size : ℚ) (d md : Nat)
    (children : Option (List OctreeNode)) (voxel : Option Voxel) :
    (OctreeNode.mk position size d md children voxel).updateActivePass =
      .mk position size d md
        (match children with
         | some cs => some (OctreeNode.updateActivePassL cs)
         | none => none)
        (if (OctreeNode.mk position size d md children voxel).visited then
          match (OctreeNode.mk position size d md children voxel).getVoxel
              (OctreeNode.mk position size d md children voxel).position with
          | some _ => voxel.map fun w =>
              { w with
                active := OctreeNode.hasExposedFaces
                  (OctreeNode.mk position size d md children voxel)
                  (OctreeNode.mk position size d md children voxel).position }
          | none => voxel
         else voxel) := by
  cases children <;> rfl

theorem OctreeNode.noStagedB_updateActivePass :
    ∀ n : OctreeNode, n.noStagedB = true → n.updateActivePass.noStagedB = true := by
  intro n
  induction n using OctreeNode.inductionOn with
  | step position size d md children voxel ih =>
  intro h
  rw [OctreeNode.noStagedB_mk] at h
  rw [OctreeNode.updateActivePass_mk]
  rw [OctreeNode.noStagedB_mk]
  constructor
  · intro hlt
    rw [h.1 hlt]
    split_ifs
    · cases hg : (OctreeNode.mk position size d md children none).getVoxel
        (OctreeNode.mk position size d md children none).position <;> simp [hg]
    · rfl
  · intro cs' hcs'
    cases children with
    | some cs =>
      simp only [OctreeNode.updateActivePassL_eq] at hcs'
      cases hcs'
      intro c' hc'
      rcases List.mem_map.mp hc' with ⟨c, hc, rfl⟩
      exact ih cs rfl c hc (h.2 cs rfl c hc)
    | none => cases hcs'

/-- C9: in every state reachable from a freshly constructed `VoxelOctree`
through the public API, every node strictly below `maxDepth` holds no direct
voxel — `setVoxel` with a non-empty voxel always subdivides and recurses, so a
"staged" voxel on an internal node can only ever be the empty marker. -/
theorem reachable_no_staged_voxel (t : VoxelOctree) (h : Reachable t) :
    t.root.noStagedB = true := by
  induction h with
  | create size maxDepth =>
    show (OctreeNode.mk _ size 0 maxDepth none none).noStagedB = true
    rw [OctreeNode.noStagedB_mk]
    exact ⟨fun _ => rfl, fun cs hcs => by cases hcs⟩
  | set p v ht ih => exact OctreeNode.noStagedB_setVoxelAux _ _ _ _ ih
  | update ht ih => exact OctreeNode.noStagedB_updateActivePass _ ih
  | clear ht ih =>
    show (OctreeNode.mk _ _ 0 _ none none).noStagedB = true
    rw [OctreeNode.noStagedB_mk]
    exact ⟨fun _ => rfl, fun cs hcs => by cases hcs⟩

/-- Witness for C9: the concrete single-voxel tree is reachable and satisfies
the invariant. -/
theorem reachable_no_staged_voxel_witness : singleVoxelTree.root.noStagedB = true :=
  reachable_no_staged_voxel singleVoxelTree
    (Reachable.set ⟨0, 0, 0⟩ (some redVoxel) (Reachable.create 4 2))

theorem OctreeNode.getVoxel_eq_none (n : OctreeNode) (p : Vec3)
    (h : n.containsPoint p = false) : n.getVoxel p = none := by
  cases n
  rw [OctreeNode.getVoxel_mk]
  simp [h]

/-- The exposure test of `updateActiveStates` is degenerate: `hasExposedFaces`
is invoked on the visited node itself with the node's own minimum corner, and
the `-X` neighbor `position - (1,0,0)` always lies outside the node's own
half-open bounds, so the node-local lookup reports an empty neighbor for every
node whatsoever. -/
theorem OctreeNode.hasExposedFaces_self (n : OctreeNode) :
    n.hasExposedFaces n.position = true := by
  have hc : n.containsPoint
      ⟨qadd n.position.x (-1), qadd n.position.y 0, qadd n.position.z 0⟩ = false := by
    apply OctreeNode.containsPoint_false_of_not_inRegion
    rw [inRegion_iff]
    rintro ⟨hx, -⟩
    simp only [qadd_eq] at hx
    linarith
  have hx := OctreeNode.getVoxel_eq_none n _ hc
  simp only [OctreeNode.hasExposedFaces, neighborOffsets, List.any_cons, List.any_nil,
    Bool.or_eq_true]
  exact Or.inr (Or.inl (by rw [hx]; rfl))

/-- C1 (code bug): after `updateActiveStates()`, active does not equal the
whole-tree 6-neighbor exposure test.  The callback calls
`node.hasExposedFaces(node.position)` on the visited node itself, whose own
bounds never contain the `-X` neighbor, so every stored voxel is marked
active; in particular, the concrete voxel at the origin whose six axis-aligned
neighbors are all occupied — which the claim requires to end up inactive — is
(re)marked active even though it was stored inactive. -/
theorem updateActiveStates_ignores_exposure :
    (∀ n : OctreeNode, n.hasExposedFaces n.position = true) ∧
    surroundedTree.getVoxel ⟨0, 0, 0⟩ = some inactiveVoxel ∧
    ((surroundedTree.getVoxel ⟨1, 0, 0⟩).isSome = true ∧
     (surroundedTree.getVoxel ⟨-1, 0, 0⟩).isSome = true ∧
     (surroundedTree.getVoxel ⟨0, 1, 0⟩).isSome = true ∧
     (surroundedTree.getVoxel ⟨0, -1, 0⟩).isSome = true ∧
     (surroundedTree.getVoxel ⟨0, 0, 1⟩).isSome = true ∧
     (surroundedTree.getVoxel ⟨0, 0, -1⟩).isSome = true) ∧
    surroundedTree.updateActiveStates.getVoxel ⟨0, 0, 0⟩ =
      some { inactiveVoxel with active := true } := by
  refine ⟨fun n => OctreeNode.hasExposedFaces_self n, ?_⟩
  set_option maxRecDepth 4000000 in decide

/-- C5: each vertex record is 7 floats `(x, y, z, r, g, b, a)`; each visible
face is emitted as exactly two triangles over its 4 corners, fan-split
`[0,1,2]` and `[0,2,3]`, unindexed — 6 vertex records, 42 floats; an active
voxel's emission consists of exactly 42 floats per face whose neighbor
position holds no voxel; and the isolated single active voxel at unit
granularity yields exactly 36 vertex records = 252 floats. -/
theorem getVertices_face_emission :
    (∀ (p : Vec3) (c : RGBA), (vertexRecord p c).length = 7) ∧
    (∀ (v0 v1 v2 v3 : Vec3) (c : RGBA),
      faceRecords v0 v1 v2 v3 c =
        vertexRecord v0 c ++ vertexRecord v1 c ++ vertexRecord v2 c ++
        vertexRecord v0 c ++ vertexRecord v2 c ++ vertexRecord v3 c ∧
      (faceRecords v0 v1 v2 v3 c).length = 42) ∧
    (∀ (root n : OctreeNode) (v : Voxel), n.getVoxel n.position = some v →
      v.active = true →
      (emitNode root n).length =
        42 * ((if (root.getVoxel ⟨n.position.x, n.position.y, qsub n.position.z 1⟩).isNone
                then 1 else 0) +
              (if (root.getVoxel ⟨n.position.x, n.position.y, qadd n.position.z n.size⟩).isNone
                then 1 else 0) +
              (if (root.getVoxel ⟨n.position.x, qadd n.position.y n.size, n.position.z⟩).isNone
                then 1 else 0) +
              (if (root.getVoxel ⟨n.position.x, qsub n.position.y 1, n.position.z⟩).isNone
                then 1 else 0) +
              (if (root.getVoxel ⟨qadd n.position.x n.size, n.position.y, n.position.z⟩).isNone
                then 1 else 0) +
              (if (root.getVoxel ⟨qsub n.position.x 1, n.position.y, n.position.z⟩).isNone
                then 1 else 0))) ∧
    singleVoxelTree.verticesList.length = 252 := by
  refine ⟨fun p c => rfl, fun v0 v1 v2 v3 c => ⟨by simp [faceRecords], rfl⟩, ?_, ?_⟩
  · intro root n v hget hact
    rw [emitNode, hget]
    simp only [hact, if_true]
    simp only [List.length_append, apply_ite List.length, List.length_nil,
      show ∀ (v0 v1 v2 v3 : Vec3) (c : RGBA), (faceRecords v0 v1 v2 v3 c).length = 42 from
        fun _ _ _ _ _ => rfl]
    split_ifs <;> norm_num
  · set_option maxRecDepth 4000000 in decide

/-- Witness for C5 at a concrete unit leaf holding an active voxel. -/
theorem getVertices_face_emission_witness :
    (OctreeNode.mk ⟨0, 0, 0⟩ 1 2 2 none (some redVoxel)).getVoxel
      (OctreeNode.mk ⟨0, 0, 0⟩ 1 2 2 none (some redVoxel)).position = some redVoxel ∧
    redVoxel.active = true ∧
    (emitNode (OctreeNode.mk ⟨0, 0, 0⟩ 1 2 2 none (some redVoxel))
        (OctreeNode.mk ⟨0, 0, 0⟩ 1 2 2 none (some redVoxel))).length =
      42 * ((if ((OctreeNode.mk ⟨0, 0, 0⟩ 1 2 2 none (some redVoxel)).getVoxel
                ⟨(0 : ℚ), (0 : ℚ), qsub 0 1⟩).isNone then 1 else 0) +
            (if ((OctreeNode.mk ⟨0, 0, 0⟩ 1 2 2 none (some redVoxel)).getVoxel
                ⟨(0 : ℚ), (0 : ℚ), qadd 0 1⟩).isNone then 1 else 0) +
            (if ((OctreeNode.mk ⟨0, 0, 0⟩ 1 2 2 none (some redVoxel)).getVoxel
                ⟨(0 : ℚ), qadd 0 1, (0 : ℚ)⟩).isNone then 1 else 0) +
            (if ((OctreeNode.mk ⟨0, 0, 0⟩ 1 2 2 none (some redVoxel)).getVoxel
                ⟨(0 : ℚ), qsub 0 1, (0 : ℚ)⟩).isNone then 1 else 0) +
            (if ((OctreeNode.mk ⟨0, 0, 0⟩ 1 2 2 none (some redVoxel)).getVoxel
                ⟨qadd 0 1, (0 : ℚ), (0 : ℚ)⟩).isNone then 1 else 0) +
            (if ((OctreeNode.mk ⟨0, 0, 0⟩ 1 2 2 none (some redVoxel)).getVoxel
                ⟨qsub 0 1, (0 : ℚ), (0 : ℚ)⟩).isNone then 1 else 0)) :=
  ⟨by decide, rfl,
    getVertices_face_emission.2.2.1 (OctreeNode.mk ⟨0, 0, 0⟩ 1 2 2 none (some redVoxel))
      (OctreeNode.mk ⟨0, 0, 0⟩ 1 2 2 none (some redVoxel)) redVoxel (by decide) rfl⟩

theorem OctreeNode.containsPoint_child {n : OctreeNode} {p : Vec3} (c : OctreeNode)
    (hpos : c.position = childPosition n.position n.size (n.getChildIndexForPosition p))
    (hsz : c.size = qhalf n.size)
    (hin : n.containsPoint p = true) : c.containsPoint p = true := by
  rw [OctreeNode.containsPoint_iff_inRegion, hpos, hsz]
  exact OctreeNode.inRegion_child n p ((OctreeNode.containsPoint_iff_inRegion n p).mp hin)

theorem OctreeNode.getVoxel_after_set (position : Vec3) (size : ℚ) (d md : Nat)
    (cs : List OctreeNode) (voxel : Option Voxel) (c' : OctreeNode) (p : Vec3) (j : Nat)
    (hj : j = (OctreeNode.mk position size d md (some cs) voxel).getChildIndexForPosition p)
    (hlen : j < cs.length)
    (hin : (OctreeNode.mk position size d md (some (cs.set j c')) voxel).containsPoint p = true)
    (h2 : d ≠ md) (hv : voxel = none) :
    (OctreeNode.mk position size d md (some (cs.set j c')) voxel).getVoxel p =
      c'.getVoxel p := by
  rw [OctreeNode.getVoxel_mk, if_neg (not_not_intro hin),
    if_neg (show ¬ (d = md ∨ voxel.isSome = true) by
      rintro (h | h)
      · exact h2 h
      · rw [hv] at h; cases h)]
  dsimp only
  rw [OctreeNode.getVoxelInList_eq]
  have hidx : (OctreeNode.mk position size d md (some (cs.set j c')) voxel).getChildIndexForPosition
      p = j := hj.symm
  rw [hidx]
  rw [List.get?_set_eq_of_lt c' hlen]

theorem OctreeNode.getVoxel_setVoxelAux (gas : Nat) :
    ∀ (n : OctreeNode) (p : Vec3) (v : Option Voxel),
      n.wfB = true → n.containsPoint p = true → n.maxDepth + 1 ≤ gas + n.depth →
      (OctreeNode.setVoxelAux gas n p v).getVoxel p = v := by
  induction gas with
  | zero =>
    intro n p v hwf hin hgas
    exfalso
    cases n with
    | mk position size d md children voxel =>
      have hdm := ((OctreeNode.wfB_mk_iff _ _ _ _ _ _).mp hwf).2.1
      simp only [OctreeNode.maxDepth_mk, OctreeNode.depth_mk] at hgas
      omega
  | succ gas ih =>
    intro n p v hwf hin hgas
    cases n with
    | mk position size d md children voxel =>
      obtain ⟨hs, hdm, hch, hvx⟩ := (OctreeNode.wfB_mk_iff _ _ _ _ _ _).mp hwf
      simp only [OctreeNode.maxDepth_mk, OctreeNode.depth_mk] at hgas
      rw [OctreeNode.setVoxelAux_succ, if_neg (not_not_intro hin)]
      by_cases h2 : d = md
      · rw [if_pos h2, OctreeNode.getVoxel_mk,
          if_neg (not_not_intro (show (OctreeNode.mk position size d md children v).containsPoint
            p = true from hin)), if_pos (Or.inl h2)]
      · rw [if_neg h2]
        have hd : d < md := lt_of_le_of_ne hdm h2
        have hvnone : voxel = none := by
          rcases hvx with h | h
          · exact absurd h h2
          · exact h
        by_cases h3 : children.isNone = true ∧ v.isSome = true
        · rw [if_pos h3]
          have hilt : (OctreeNode.mk position size d md children voxel).getChildIndexForPosition p
              < 8 := OctreeNode.getChildIndexForPosition_lt_8 _ _
          dsimp only
          rw [subdivideChildren_get? position size d md _ hilt]
          dsimp only
          rw [OctreeNode.getVoxel_after_set position size d md
            (subdivideChildren position size d md) voxel _ p
            ((OctreeNode.mk position size d md children voxel).getChildIndexForPosition p) rfl
            (by rw [subdivideChildren_length]; exact hilt) hin h2 hvnone]
          apply ih
          · rw [OctreeNode.wfB_mk_iff]
            exact ⟨by rw [qhalf_eq]; linarith, by omega,
              fun cs hcs => Option.noConfusion hcs, Or.inr rfl⟩
          · exact OctreeNode.containsPoint_child _ (by simp) (by simp) hin
          · simp only [OctreeNode.maxDepth_mk, OctreeNode.depth_mk]
            omega
        · rw [if_neg h3]
          cases children with
          | none =>
            have hv : v = none := by
              by_cases hv' : v.isSome
              · exact absurd ⟨rfl, hv'⟩ h3
              · simpa [Option.not_isSome_iff_eq_none] using hv'
            dsimp only
            rw [OctreeNode.getVoxel_mk,
              if_neg (not_not_intro (show (OctreeNode.mk position size d md none v).containsPoint
                p = true from hin)),
              if_neg (show ¬ (d = md ∨ v.isSome = true) by
                rintro (h | h)
                · exact h2 h
                · rw [hv] at h; cases h)]
            rw [hv]
          | some cs =>
            have hlen : cs.length = 8 := OctreeNode.wfB_children_length hwf
            have hilt : (OctreeNode.mk position size d md (some cs)
                voxel).getChildIndexForPosition p < 8 :=
              OctreeNode.getChildIndexForPosition_lt_8 _ _
            have hget := List.get?_eq_get (l := cs)
              (n := (OctreeNode.mk position size d md (some cs) voxel).getChildIndexForPosition p)
              (by omega)
            obtain ⟨hcpos, hcsz, hcd, hcmd, hcwf, -⟩ := OctreeNode.wfB_child hwf hget
            dsimp only
            rw [hget]
            dsimp only
            rw [OctreeNode.getVoxel_after_set position size d md cs voxel _ p _ rfl (by omega)
              hin h2 hvnone]
            apply ih
            · exact hcwf
            · exact OctreeNode.containsPoint_child _ (by rw [hcpos]; rfl) (by rw [hcsz]; rfl)
                hin
            · rw [hcmd, hcd]
              omega

/-- C2: for every position `p` inside the root's half-open cube bounds and
every voxel value `v` (including the empty marker `none`), `setVoxel(p, v)`
followed by `getVoxel(p)` on the same (well-formed, i.e. API-built) octree
returns `v`. -/
theorem setVoxel_getVoxel_roundtrip (t : VoxelOctree) (p : Vec3) (v : Option Voxel)
    (hwf : t.root.wfB = true) (hin : t.root.containsPoint p = true) :
    (t.setVoxel p v).getVoxel p = v :=
  OctreeNode.getVoxel_setVoxelAux (t.root.maxDepth + 1) t.root p v hwf hin (by omega)

/-- Witness for C2: a concrete in-bounds write of a voxel and of the empty
marker. -/
theorem setVoxel_getVoxel_roundtrip_witness :
    ((VoxelOctree.create 4 2).root.wfB = true ∧
     (VoxelOctree.create 4 2).root.containsPoint ⟨0, 0, 0⟩ = true ∧
     ((VoxelOctree.create 4 2).setVoxel ⟨0, 0, 0⟩ (some redVoxel)).getVoxel ⟨0, 0, 0⟩ =
       some redVoxel) ∧
    (singleVoxelTree.root.wfB = true ∧
     singleVoxelTree.root.containsPoint ⟨0, 0, 0⟩ = true ∧
     (singleVoxelTree.setVoxel ⟨0, 0, 0⟩ none).getVoxel ⟨0, 0, 0⟩ = none) :=
  ⟨⟨by decide, by decide,
      setVoxel_getVoxel_roundtrip (VoxelOctree.create 4 2) ⟨0, 0, 0⟩ (some redVoxel)
        (by decide) (by decide)⟩,
   ⟨by set_option maxRecDepth 1000000 in decide, by decide,
      setVoxel_getVoxel_roundtrip singleVoxelTree ⟨0, 0, 0⟩ none
        (by set_option maxRecDepth 1000000 in decide) (by decide)⟩⟩

theorem OctreeNode.allNodes_mk (position : Vec3) (size : ℚ) (d md : Nat)
    (children : Option (List OctreeNode)) (voxel : Option Voxel) :
    (OctreeNode.mk position size d md children voxel).allNodes =
      OctreeNode.mk position size d md children voxel ::
      (match children with
       | some cs => OctreeNode.allNodesL cs
       | none => []) := by
  cases children <;> rfl

/-- `traverse` visits exactly the nodes satisfying the visit condition, in
pre-order. -/
theorem OctreeNode.traverseList_eq_filter :
    ∀ n : OctreeNode, n.traverseList = n.allNodes.filter OctreeNode.visited := by
  intro n
  induction n using OctreeNode.inductionOn with
  | step position size d md children voxel ih =>
  rw [OctreeNode.traverseList_mk, OctreeNode.allNodes_mk, List.filter_cons]
  have haux : ∀ cs : List OctreeNode, (∀ c ∈ cs, c.traverseList = c.allNodes.filter
      OctreeNode.visited) →
      OctreeNode.traverseListL cs = (OctreeNode.allNodesL cs).filter OctreeNode.visited := by
    intro cs h
    induction cs with
    | nil => rfl
    | cons c cs ihl =>
      show c.traverseList ++ OctreeNode.traverseListL cs = _
      rw [show OctreeNode.allNodesL (c :: cs) = c.allNodes ++ OctreeNode.allNodesL cs from rfl,
        List.filter_append, h c (List.mem_cons_self c cs),
        ihl (fun c' hc' => h c' (List.mem_cons_of_mem c hc'))]
  cases children with
  | some cs =>
    dsimp only
    rw [haux cs (fun c hc => ih cs rfl c hc)]
    by_cases hv : (OctreeNode.mk position size d md (some cs) voxel).visited <;> simp [hv]
  | none =>
    dsimp only
    by_cases hv : (OctreeNode.mk position size d md none voxel).visited <;> simp [hv]

/-- Well-formedness is hereditary: every node of a well-formed tree is
well-formed. -/
theorem OctreeNode.wfB_mem_allNodes :
    ∀ n : OctreeNode, n.wfB = true → ∀ m ∈ n.allNodes, m.wfB = true := by
  intro n
  induction n using OctreeNode.inductionOn with
  | step position size d md children voxel ih =>
  intro hwf m hm
  rw [OctreeNode.allNodes_mk] at hm
  rcases List.mem_cons.mp hm with rfl | hm
  · exact hwf
  · cases children with
    | some cs =>
      simp only [OctreeNode.allNodesL_eq, List.mem_flatten, List.mem_map] at hm
      obtain ⟨l, ⟨c, hc, rfl⟩, hml⟩ := hm
      have hcwf : c.wfB = true := by
        obtain ⟨j, hj⟩ := List.mem_iff_get?.mp hc
        exact (OctreeNode.wfB_child hwf hj).2.2.2.2.1
      exact ih cs rfl c hc hcwf m hml
    | none => cases hm

/-- Every node of a (well-formed) subtree lies inside the subtree root's
region. -/
theorem OctreeNode.mem_allNodes_inRegion :
    ∀ n : OctreeNode, n.wfB = true → ∀ m ∈ n.allNodes,
      inRegion n.position n.size m.position := by
  intro n
  induction n using OctreeNode.inductionOn with
  | step position size d md children voxel ih =>
  intro hwf m hm
  obtain ⟨hs, hdm, hch, hvx⟩ := (OctreeNode.wfB_mk_iff _ _ _ _ _ _).mp hwf
  rw [OctreeNode.allNodes_mk] at hm
  rcases List.mem_cons.mp hm with rfl | hm
  · simp only [OctreeNode.position_mk, OctreeNode.size_mk, inRegion_iff]
    refine ⟨le_refl _, by linarith, le_refl _, by linarith, le_refl _, by linarith⟩
  · cases children with
    | some cs =>
      simp only [OctreeNode.allNodesL_eq, List.mem_flatten, List.mem_map] at hm
      obtain ⟨l, ⟨c, hc, rfl⟩, hml⟩ := hm
      obtain ⟨j, hj⟩ := List.mem_iff_get?.mp hc
      obtain ⟨hcpos, hcsz, hcd, hcmd, hcwf, hjlt⟩ := OctreeNode.wfB_child hwf hj
      have hreg := ih cs rfl c hc hcwf m hml
      rw [hcpos, hcsz] at hreg
      exact inRegion_parent_of_child position size j hjlt m.position hs hreg
    | none => cases hm

theorem OctreeNode.visited_iff (position : Vec3) (size : ℚ) (d md : Nat)
    (children : Option (List OctreeNode)) (voxel : Option Voxel) :
    (OctreeNode.mk position size d md children voxel).visited = true ↔
      d = md ∨ (voxel.isSome = true ∧ children = none) := by
  simp [OctreeNode.visited, Option.isNone_iff_eq_none]

theorem OctreeNode.mem_traverseList_inRegion {n : OctreeNode} (hwf : n.wfB = true)
    {m : OctreeNode} (hm : m ∈ n.traverseList) :
    inRegion n.position n.size m.position := by
  rw [OctreeNode.traverseList_eq_filter] at hm
  exact OctreeNode.mem_allNodes_inRegion n hwf m (List.mem_filter.mp hm).1

theorem OctreeNode.traverseListL_pos_nodup :
    ∀ (cs : List OctreeNode) (position : Vec3) (size : ℚ) (d md k : Nat),
      OctreeNode.wfChildrenB position size d md k cs = true →
      (∀ c ∈ cs, ((c.traverseList).map OctreeNode.position).Nodup) →
      (((OctreeNode.traverseListL cs).map OctreeNode.position)).Nodup := by
  intro cs
  induction cs with
  | nil => intro _ _ _ _ _ _ _; simp [OctreeNode.traverseListL]
  | cons c cs ihl =>
    intro position size d md k hw hnd
    simp only [OctreeNode.wfChildrenB, Bool.and_eq_true, decide_eq_true_eq] at hw
    obtain ⟨⟨⟨⟨⟨hp, hsz⟩, hd⟩, hm⟩, hcwf⟩, hrest⟩ := hw
    have hk8 : k + 1 + cs.length = 8 :=
      ((OctreeNode.wfChildrenB_iff _ _ _ _ _ _).mp hrest).1
    show ((c.traverseList ++ OctreeNode.traverseListL cs).map OctreeNode.position).Nodup
    rw [List.map_append, List.nodup_append]
    refine ⟨hnd c (List.mem_cons_self c cs), ihl position size d md (k + 1) hrest
      (fun c' hc' => hnd c' (List.mem_cons_of_mem c hc')), ?_⟩
    intro q hqA hqB
    obtain ⟨m1, hm1, rfl⟩ := List.mem_map.mp hqA
    have hreg1 : inRegion (childPosition position size k) (qhalf size) m1.position := by
      have := OctreeNode.mem_traverseList_inRegion hcwf hm1
      rwa [hp, hsz] at this
    simp only [OctreeNode.traverseListL_eq, List.mem_map, List.mem_flatten] at hqB
    obtain ⟨m2, ⟨l2, ⟨c2, hc2, rfl⟩, hm2⟩, hpos2⟩ := hqB
    obtain ⟨j, hj⟩ := List.mem_iff_get?.mp hc2
    obtain ⟨hlen2, hall2⟩ := (OctreeNode.wfChildrenB_iff _ _ _ _ _ _).mp hrest
    obtain ⟨hp2, hsz2, hd2, hm2', hwf2⟩ := hall2 j c2 hj
    have hreg2 : inRegion (childPosition position size (k + 1 + j)) (qhalf size) m1.position := by
      have := OctreeNode.mem_traverseList_inRegion hwf2 hm2
      rw [hp2, hsz2] at this
      rwa [hpos2] at this
    have hjlt : j < cs.length := by
      rcases List.get?_eq_some.mp hj with ⟨h, -⟩
      exact h
    have hi1 := OctreeNode.childIndex_eq_of_inRegion (OctreeNode.mk position size 0 0 none none)
      k (by omega) m1.position hreg1
    have hi2 := OctreeNode.childIndex_eq_of_inRegion (OctreeNode.mk position size 0 0 none none)
      (k + 1 + j) (by omega) m1.position hreg2
    omega

theorem OctreeNode.traverseList_pos_nodup :
    ∀ n : OctreeNode, n.wfB = true → ((n.traverseList.map OctreeNode.position)).Nodup := by
  intro n
  induction n using OctreeNode.inductionOn with
  | step position size d md children voxel ih =>
  intro hwf
  obtain ⟨hs, hdm, hch, hvx⟩ := (OctreeNode.wfB_mk_iff _ _ _ _ _ _).mp hwf
  rw [OctreeNode.traverseList_mk]
  by_cases hv : (OctreeNode.mk position size d md children voxel).visited = true
  · have hcn : children = none := by
      rcases (OctreeNode.visited_iff _ _ _ _ _ _).mp hv with h | h
      · cases children with
        | some cs => exact absurd h (hch cs rfl).1
        | none => rfl
      · exact h.2
    subst hcn
    simp [hv]
  · rw [if_neg hv]
    cases children with
    | none => simp
    | some cs =>
      have hwc := (hch cs rfl).2
      simpa using OctreeNode.traverseListL_pos_nodup cs position size d md 0 hwc
        (fun c hc => by
          obtain ⟨j, hj⟩ := List.mem_iff_get?.mp hc
          exact ih cs rfl c hc (OctreeNode.wfB_child hwf hj).2.2.2.2.1)

/-- Counterexample to C3 as stated: on the concrete single-voxel tree the
visitor sees 8 entries, yet only 1 of them (and only 1 node in the whole
tree) holds a stored voxel — the other 7 entries are empty true leaves, so
the callback does see entries that correspond to no stored voxel. -/
theorem traverse_visits_empty_leaves :
    singleVoxelTree.root.traverseList.length = 8 ∧
    (singleVoxelTree.root.traverseList.filter (fun m => m.voxel.isSome)).length = 1 ∧
    (singleVoxelTree.root.allNodes.filter (fun m => m.voxel.isSome)).length = 1 := by
  set_option maxRecDepth 4000000 in decide

/-- C3 (amended): `traverse` invokes the visitor exactly on the nodes that
are true leaves (`depth = maxDepth`) or childless nodes holding a direct
voxel, never on an internal node that has children; every node holding a
stored voxel is visited, and no two visited entries share a position (no
duplicates) — but the visitor may additionally see empty true leaves, so not
every entry corresponds to a stored voxel. -/
theorem traverse_characterization (n : OctreeNode) (hwf : n.wfB = true) :
    n.traverseList = n.allNodes.filter OctreeNode.visited ∧
    (∀ m ∈ n.traverseList,
      (m.depth = m.maxDepth ∧ m.children = none) ∨
      (m.voxel.isSome = true ∧ m.children = none)) ∧
    (∀ m ∈ n.allNodes, m.voxel.isSome = true → m ∈ n.traverseList) ∧
    ((n.traverseList.map OctreeNode.position)).Nodup := by
  refine ⟨OctreeNode.traverseList_eq_filter n, ?_, ?_, OctreeNode.traverseList_pos_nodup n hwf⟩
  · intro m hm
    rw [OctreeNode.traverseList_eq_filter] at hm
    have hmem := (List.mem_filter.mp hm).1
    have hvis := (List.mem_filter.mp hm).2
    have hmwf := OctreeNode.wfB_mem_allNodes n hwf m hmem
    cases m with
    | mk mp ms mdp mmd mch mvx =>
      obtain ⟨-, -, hch, -⟩ := (OctreeNode.wfB_mk_iff _ _ _ _ _ _).mp hmwf
      rcases (OctreeNode.visited_iff _ _ _ _ _ _).mp hvis with h | h
      · left
        refine ⟨h, ?_⟩
        cases mch with
        | some cs => exact absurd h (hch cs rfl).1
        | none => rfl
      · right
        exact ⟨h.1, h.2⟩
  · intro m hm hvx
    rw [OctreeNode.traverseList_eq_filter]
    refine List.mem_filter.mpr ⟨hm, ?_⟩
    have hmwf := OctreeNode.wfB_mem_allNodes n hwf m hm
    cases m with
    | mk mp ms mdp mmd mch mvx' =>
      obtain ⟨-, hdm, -, hvnone⟩ := (OctreeNode.wfB_mk_iff _ _ _ _ _ _).mp hmwf
      rw [OctreeNode.visited_iff]
      rcases hvnone with h | h
      · exact Or.inl h
      · rw [OctreeNode.voxel_mk] at hvx
        rw [h] at hvx
        cases hvx

/-- Witness for the amended C3 at the concrete single-voxel tree. -/
theorem traverse_characterization_witness :
    singleVoxelTree.root.wfB = true ∧
    (singleVoxelTree.root.traverseList =
        singleVoxelTree.root.allNodes.filter OctreeNode.visited ∧
      (∀ m ∈ singleVoxelTree.root.traverseList,
        (m.depth = m.maxDepth ∧ m.children = none) ∨
        (m.voxel.isSome = true ∧ m.children = none)) ∧
      (∀ m ∈ singleVoxelTree.root.allNodes, m.voxel.isSome = true →
        m ∈ singleVoxelTree.root.traverseList) ∧
      ((singleVoxelTree.root.traverseList.map OctreeNode.position)).Nodup) :=
  ⟨by set_option maxRecDepth 1000000 in decide,
    traverse_characterization singleVoxelTree.root
      (by set_option maxRecDepth 1000000 in decide)⟩

theorem OctreeNode.updateVoxelActive_mk (position : Vec3) (size : ℚ) (d md : Nat)
    (children : Option (List OctreeNode)) (voxel : Option Voxel) (p : Vec3) (b : Bool) :
    (OctreeNode.mk position size d md children voxel).updateVoxelActive p b =
      if ¬ (OctreeNode.mk position size d md children voxel).containsPoint p then
        .mk position size d md children voxel
      else if d = md ∨ voxel.isSome then
        .mk position size d md children (voxel.map fun v => { v with active := b })
      else
        match children with
        | some cs =>
          .mk position size d md
            (some (OctreeNode.updateVoxelActiveList cs
              ((OctreeNode.mk position size d md children voxel).getChildIndexForPosition p) p b))
            voxel
        | none => .mk position size d md children voxel := by
  cases children <;> rfl

theorem OctreeNode.getChildIndexForPosition_irrel (position : Vec3) (size : ℚ)
    (d md d' md' : Nat) (ch ch' : Option (List OctreeNode)) (vx vx' : Option Voxel) (p : Vec3) :
    (OctreeNode.mk position size d md ch vx).getChildIndexForPosition p =
      (OctreeNode.mk position size d' md' ch' vx').getChildIndexForPosition p := rfl

theorem OctreeNode.containsPoint_irrel (position : Vec3) (size : ℚ)
    (d md d' md' : Nat) (ch ch' : Option (List OctreeNode)) (vx vx' : Option Voxel) (p : Vec3) :
    (OctreeNode.mk position size d md ch vx).containsPoint p =
      (OctreeNode.mk position size d' md' ch' vx').containsPoint p := rfl

/-- `updateVoxelActive` changes only an `active` flag, never occupancy: a
lookup at any position is empty after the update exactly when it was empty
before. -/
theorem OctreeNode.getVoxel_isNone_updateVoxelActive :
    ∀ (n : OctreeNode) (p : Vec3) (b : Bool) (q : Vec3),
      (((n.updateVoxelActive p b).getVoxel q)).isNone = ((n.getVoxel q)).isNone := by
  intro n
  induction n using OctreeNode.inductionOn with
  | step position size d md children voxel ih =>
  intro p b q
  rw [OctreeNode.updateVoxelActive_mk]
  by_cases h1 : (OctreeNode.mk position size d md children voxel).containsPoint p = true
  · rw [if_neg (not_not_intro h1)]
    by_cases h2 : d = md ∨ voxel.isSome = true
    · rw [if_pos h2]
      rw [OctreeNode.getVoxel_mk, OctreeNode.getVoxel_mk]
      rw [OctreeNode.containsPoint_irrel position size d md d md children children
        (voxel.map fun v => { v with active := b }) voxel q]
      rw [OctreeNode.getChildIndexForPosition_irrel position size d md d md children children
        (voxel.map fun v => { v with active := b }) voxel q]
      have hcond : (d = md ∨ (voxel.map fun v => { v with active := b }).isSome = true) ↔
          (d = md ∨ voxel.isSome = true) := by cases voxel <;> simp
      simp only [hcond]
      split_ifs
      · cases voxel <;> simp
      · rfl
    · rw [if_neg h2]
      cases children with
      | none => rfl
      | some cs =>
        dsimp only
        rw [OctreeNode.getVoxel_mk, OctreeNode.getVoxel_mk]
        by_cases hq : (OctreeNode.mk position size d md (some cs) voxel).containsPoint q = true
        · rw [if_neg (not_not_intro (show (OctreeNode.mk position size d md
              (some (OctreeNode.updateVoxelActiveList cs
                ((OctreeNode.mk position size d md (some cs)
                  voxel).getChildIndexForPosition p) p b))
              voxel).containsPoint q = true from hq)),
            if_neg (not_not_intro hq)]
          by_cases h3 : d = md ∨ voxel.isSome = true
          · rw [if_pos h3, if_pos h3]
          · rw [if_neg h3, if_neg h3]
            dsimp only
            rw [OctreeNode.getVoxelInList_eq, OctreeNode.getVoxelInList_eq]
            rw [OctreeNode.getChildIndexForPosition_irrel position size d md d md
              (some (OctreeNode.updateVoxelActiveList cs
                ((OctreeNode.mk position size d md (some cs)
                  voxel).getChildIndexForPosition p) p b)) (some cs) voxel voxel q]
            rw [OctreeNode.updateVoxelActiveList_eq]
            cases hg0 : cs.get? ((OctreeNode.mk position size d md (some cs)
                voxel).getChildIndexForPosition p) with
            | none => rfl
            | some c0 =>
              by_cases hij : (OctreeNode.mk position size d md (some cs)
                  voxel).getChildIndexForPosition q =
                  (OctreeNode.mk position size d md (some cs)
                    voxel).getChildIndexForPosition p
              · rw [hij]
                rw [List.get?_set_eq_of_lt _ (by
                  rcases List.get?_eq_some.mp hg0 with ⟨h, -⟩
                  exact h)]
                rw [hg0]
                exact ih cs rfl c0 (List.get?_mem hg0) p b q
              · rw [List.get?_set_ne _ _ (fun hcontra => hij hcontra.symm)]
        · rw [if_pos (show ¬ (OctreeNode.mk position size d md
              (some (OctreeNode.updateVoxelActiveList cs
                ((OctreeNode.mk position size d md (some cs)
                  voxel).getChildIndexForPosition p) p b))
              voxel).containsPoint q = true from hq),
            if_pos hq]
  · rw [if_pos h1]

/-- A node of positive size contains its own minimum corner. -/
theorem OctreeNode.containsPoint_self (n : OctreeNode) (hs : 0 < n.size) :
    n.containsPoint n.position = true := by
  rw [OctreeNode.containsPoint_iff]
  refine ⟨le_refl _, by linarith, le_refl _, by linarith, le_refl _, by linarith⟩

/-- A node whose self-lookup finds no voxel emits no geometry. -/
theorem emitNode_nil_of_none (r n : OctreeNode)
    (hv : n.getVoxel n.position = none) : emitNode r n = [] := by
  unfold emitNode
  rw [hv]

/-- A node whose self-lookup finds an inactive voxel emits no geometry. -/
theorem emitNode_nil_of_inactive (r n : OctreeNode) (v : Voxel)
    (hv : n.getVoxel n.position = some v) (ha : v.active = false) :
    emitNode r n = [] := by
  unfold emitNode
  rw [hv]
  dsimp only
  rw [ha]
  simp

/-- The per-node emission depends on the root only through the emptiness of
its lookups, so roots with identical occupancy emit identically. -/
theorem emitNode_congr_root (r1 r2 m : OctreeNode)
    (h : ∀ q : Vec3, ((r1.getVoxel q)).isNone = ((r2.getVoxel q)).isNone) :
    emitNode r1 m = emitNode r2 m := by
  unfold emitNode
  cases m.getVoxel m.position with
  | none => rfl
  | some v =>
    dsimp only
    rw [h, h, h, h, h, h]

/-- Region nesting: in a well-formed tree, the region of any node is contained
in the region of the subtree root. -/
theorem OctreeNode.mem_allNodes_region_subset :
    ∀ n : OctreeNode, n.wfB = true → ∀ m ∈ n.allNodes, ∀ q : Vec3,
      inRegion m.position m.size q → inRegion n.position n.size q := by
  intro n
  induction n using OctreeNode.inductionOn with
  | step position size d md children voxel ih =>
  intro hwf m hm q hq
  obtain ⟨hs, hdm, hch, hvx⟩ := (OctreeNode.wfB_mk_iff _ _ _ _ _ _).mp hwf
  rw [OctreeNode.allNodes_mk] at hm
  rcases List.mem_cons.mp hm with rfl | hm
  · exact hq
  · cases children with
    | some cs =>
      simp only [OctreeNode.allNodesL_eq, List.mem_flatten, List.mem_map] at hm
      obtain ⟨l, ⟨c, hc, rfl⟩, hml⟩ := hm
      obtain ⟨j, hj⟩ := List.mem_iff_get?.mp hc
      obtain ⟨hcpos, hcsz, hcd, hcmd, hcwf, hjlt⟩ := OctreeNode.wfB_child hwf hj
      have hreg := ih cs rfl c hc hcwf m hml q hq
      rw [hcpos, hcsz] at hreg
      exact inRegion_parent_of_child position size j hjlt q hs hreg
    | none => cases hm

/-- A node strictly below the maximum depth with no direct voxel is not
visited by the traversal. -/
theorem OctreeNode.visited_false_of_lt (position : Vec3) (size : ℚ) (d md : Nat)
    (children : Option (List OctreeNode)) (voxel : Option Voxel)
    (hd : d ≠ md) (hv : voxel.isSome ≠ true) :
    (OctreeNode.mk position size d md children voxel).visited = false := by
  cases hb : (OctreeNode.mk position size d md children voxel).visited with
  | false => rfl
  | true =>
    rcases (OctreeNode.visited_iff _ _ _ _ _ _).mp hb with h | ⟨h, -⟩
    · exact absurd h hd
    · exact absurd h hv

/-- Every traversed node of a subtree whose root does not contain `p` keeps
its emission when nodes containing `p` are skipped. -/
theorem OctreeNode.traverseList_emit_skip_of_not_inRegion (r : OctreeNode) (p : Vec3)
    (n : OctreeNode) (hwf : n.wfB = true) (hp : n.containsPoint p = false) :
    n.traverseList.map (fun m => if m.containsPoint p = true then [] else emitNode r m) =
      n.traverseList.map (emitNode r) := by
  apply List.map_congr_left
  intro m hm
  have hmem : m ∈ n.allNodes := by
    rw [OctreeNode.traverseList_eq_filter] at hm
    exact (List.mem_filter.mp hm).1
  have hmc : m.containsPoint p = false := by
    cases hcp : m.containsPoint p with
    | false => rfl
    | true =>
      exfalso
      have hq := (OctreeNode.containsPoint_iff_inRegion m p).mp hcp
      have hreg := OctreeNode.mem_allNodes_region_subset n hwf m hmem p hq
      rw [← OctreeNode.containsPoint_iff_inRegion] at hreg
      rw [hp] at hreg
      simp at hreg
  show (if m.containsPoint p = true then [] else emitNode r m) = emitNode r m
  rw [hmc]
  simp

/-- Every traversed node of a child octant other than the one selected for `p`
keeps its emission when nodes containing `p` are skipped. -/
theorem OctreeNode.traverseList_emit_skip_of_ne (r : OctreeNode) (p : Vec3)
    (position : Vec3) (size : ℚ) (k : Nat) (hk : k < 8) (c : OctreeNode)
    (hwf : c.wfB = true) (hcpos : c.position = childPosition position size k)
    (hcsz : c.size = qhalf size)
    (hne : (OctreeNode.mk position size 0 0 none none).getChildIndexForPosition p ≠ k) :
    c.traverseList.map (fun m => if m.containsPoint p = true then [] else emitNode r m) =
      c.traverseList.map (emitNode r) := by
  apply List.map_congr_left
  intro m hm
  have hmem : m ∈ c.allNodes := by
    rw [OctreeNode.traverseList_eq_filter] at hm
    exact (List.mem_filter.mp hm).1
  have hmc : m.containsPoint p = false := by
    cases hcp : m.containsPoint p with
    | false => rfl
    | true =>
      exfalso
      have hq := (OctreeNode.containsPoint_iff_inRegion m p).mp hcp
      have hregc := OctreeNode.mem_allNodes_region_subset c hwf m hmem p hq
      rw [hcpos, hcsz] at hregc
      exact hne (OctreeNode.childIndex_eq_of_inRegion
        (OctreeNode.mk position size 0 0 none none) k hk p hregc)
  show (if m.containsPoint p = true then [] else emitNode r m) = emitNode r m
  rw [hmc]
  simp

/-- List form of the skip congruence: across sibling octant slots `k, k+1, …`
none of which is selected for `p`, skipping nodes containing `p` changes no
emission. -/
theorem OctreeNode.traverseListL_emit_skip (r : OctreeNode) (p : Vec3)
    (position : Vec3) (size : ℚ) (d md : Nat) :
    ∀ (cs : List OctreeNode) (k : Nat),
      OctreeNode.wfChildrenB position size d md k cs = true →
      (∀ j, k ≤ j →
        (OctreeNode.mk position size 0 0 none none).getChildIndexForPosition p ≠ j) →
      (OctreeNode.traverseListL cs).map
          (fun m => if m.containsPoint p = true then [] else emitNode r m) =
        (OctreeNode.traverseListL cs).map (emitNode r) := by
  intro cs
  induction cs with
  | nil => intro k _ _; rfl
  | cons c cs ihl =>
    intro k hw hne
    simp only [OctreeNode.wfChildrenB, Bool.and_eq_true, decide_eq_true_eq] at hw
    obtain ⟨⟨⟨⟨⟨hp', hsz⟩, hd⟩, hm⟩, hcwf⟩, hrest⟩ := hw
    have hk : k < 8 := by
      have := ((OctreeNode.wfChildrenB_iff _ _ _ _ _ _).mp hrest).1
      omega
    show (c.traverseList ++ OctreeNode.traverseListL cs).map
        (fun m => if m.containsPoint p = true then [] else emitNode r m) =
      (c.traverseList ++ OctreeNode.traverseListL cs).map (emitNode r)
    rw [List.map_append, List.map_append,
      OctreeNode.traverseList_emit_skip_of_ne r p position size k hk c hcwf hp' hsz
        (hne k (le_refl k)),
      ihl (k + 1) hrest (fun j hj => hne j (by omega))]

/-- Clearing the flag along the child list: octant slot `k + ℓ` is the one
selected for `p`; its subtree is updated (covered by the supplied inductive
hypothesis) and every other slot keeps its emissions. -/
theorem OctreeNode.traverseListL_map_emit_update (r : OctreeNode) (p : Vec3)
    (position : Vec3) (size : ℚ) (d md : Nat) :
    ∀ (cs : List OctreeNode) (k ℓ : Nat),
      OctreeNode.wfChildrenB position size d md k cs = true →
      (∀ c ∈ cs, c.wfB = true →
        (c.updateVoxelActive p false).traverseList.map (emitNode r) =
          c.traverseList.map
            (fun m => if m.containsPoint p = true then [] else emitNode r m)) →
      k + ℓ = (OctreeNode.mk position size 0 0 none none).getChildIndexForPosition p →
      (OctreeNode.traverseListL (OctreeNode.updateVoxelActiveList cs ℓ p false)).map
          (emitNode r) =
        (OctreeNode.traverseListL cs).map
          (fun m => if m.containsPoint p = true then [] else emitNode r m) := by
  intro cs
  induction cs with
  | nil => intro k ℓ _ _ _; cases ℓ <;> rfl
  | cons c cs ihl =>
    intro k ℓ hw hih hkl
    simp only [OctreeNode.wfChildrenB, Bool.and_eq_true, decide_eq_true_eq] at hw
    obtain ⟨⟨⟨⟨⟨hp', hsz⟩, hd⟩, hm⟩, hcwf⟩, hrest⟩ := hw
    have hk : k < 8 := by
      have := ((OctreeNode.wfChildrenB_iff _ _ _ _ _ _).mp hrest).1
      omega
    cases ℓ with
    | zero =>
      show ((c.updateVoxelActive p false).traverseList ++
            OctreeNode.traverseListL cs).map (emitNode r) =
        (c.traverseList ++ OctreeNode.traverseListL cs).map
          (fun m => if m.containsPoint p = true then [] else emitNode r m)
      rw [List.map_append, List.map_append,
        hih c (List.mem_cons_self c cs) hcwf,
        OctreeNode.traverseListL_emit_skip r p position size d md cs (k + 1) hrest
          (fun j hj => by omega)]
    | succ l =>
      show (c.traverseList ++
            OctreeNode.traverseListL (OctreeNode.updateVoxelActiveList cs l p false)).map
          (emitNode r) =
        (c.traverseList ++ OctreeNode.traverseListL cs).map
          (fun m => if m.containsPoint p = true then [] else emitNode r m)
      rw [List.map_append, List.map_append,
        OctreeNode.traverseList_emit_skip_of_ne r p position size k hk c hcwf hp' hsz
          (by omega),
        ihl (k + 1) l hrest (fun c' hc' => hih c' (List.mem_cons_of_mem c hc')) (by omega)]

/-- Clearing the active flag at `p` leaves every traversed emission unchanged
except at nodes whose region contains `p`, which emit nothing afterwards. -/
theorem OctreeNode.traverseList_map_emit_updateVoxelActive (r : OctreeNode) :
    ∀ n : OctreeNode, n.wfB = true → ∀ p : Vec3,
      ((n.updateVoxelActive p false).traverseList).map (emitNode r) =
        (n.traverseList).map
          (fun m => if m.containsPoint p = true then [] else emitNode r m) := by
  intro n
  induction n using OctreeNode.inductionOn with
  | step position size d md children voxel ih =>
  intro hwf p
  obtain ⟨hs, hdm, hch, hvx⟩ := (OctreeNode.wfB_mk_iff _ _ _ _ _ _).mp hwf
  rw [OctreeNode.updateVoxelActive_mk]
  by_cases h1 : (OctreeNode.mk position size d md children voxel).containsPoint p = true
  · rw [if_neg (not_not_intro h1)]
    by_cases h2 : d = md ∨ voxel.isSome = true
    · rw [if_pos h2]
      cases children with
      | some cs =>
        exfalso
        obtain ⟨hne, -⟩ := hch cs rfl
        rcases hvx with hvx | hvx
        · exact hne hvx
        · rcases h2 with h2 | h2
          · exact hne h2
          · rw [hvx] at h2
            exact absurd h2 (by simp)
      | none =>
        have hvis : (OctreeNode.mk position size d md none
            (Option.map (fun v => { v with active := false }) voxel)).visited = true := by
          rw [OctreeNode.visited_iff]
          rcases h2 with h2 | h2
          · exact Or.inl h2
          · refine Or.inr ⟨?_, rfl⟩
            cases voxel with
            | none => simp at h2
            | some v => rfl
        have hvis' : (OctreeNode.mk position size d md none voxel).visited = true := by
          rw [OctreeNode.visited_iff]
          rcases h2 with h2 | h2
          · exact Or.inl h2
          · exact Or.inr ⟨h2, rfl⟩
        have hemit : emitNode r (OctreeNode.mk position size d md none
            (Option.map (fun v => { v with active := false }) voxel)) = [] := by
          cases voxel with
          | none =>
            apply emitNode_nil_of_none
            rw [OctreeNode.getVoxel_mk]
            split_ifs <;> rfl
          | some v =>
            refine emitNode_nil_of_inactive r _ { v with active := false } ?_ rfl
            rw [OctreeNode.getVoxel_mk]
            rw [if_neg (not_not_intro (OctreeNode.containsPoint_self
              (OctreeNode.mk position size d md none
                (Option.map (fun v => { v with active := false }) (some v))) hs))]
            rw [if_pos (Or.inr (show (Option.map
              (fun v => ({ v with active := false } : Voxel)) (some v)).isSome = true
              from rfl))]
            rfl
        rw [OctreeNode.traverseList_mk, OctreeNode.traverseList_mk]
        simp only [hvis, hvis', eq_self_iff_true, if_true, List.map_cons, List.map_nil,
          List.append_nil, h1, hemit]
    · rw [if_neg h2]
      push_neg at h2
      obtain ⟨hdned, hvns⟩ := h2
      cases children with
      | none =>
        have hvis : (OctreeNode.mk position size d md none voxel).visited = false :=
          OctreeNode.visited_false_of_lt position size d md none voxel hdned hvns
        rw [OctreeNode.traverseList_mk]
        simp [hvis]
      | some cs =>
        dsimp only
        rw [OctreeNode.traverseList_mk, OctreeNode.traverseList_mk]
        rw [OctreeNode.visited_false_of_lt position size d md
            (some (OctreeNode.updateVoxelActiveList cs
              ((OctreeNode.mk position size d md (some cs)
                voxel).getChildIndexForPosition p) p false)) voxel hdned hvns,
          OctreeNode.visited_false_of_lt position size d md (some cs) voxel hdned hvns]
        simp only [Bool.false_eq_true, if_false, List.nil_append]
        exact OctreeNode.traverseListL_map_emit_update r p position size d md cs 0
          ((OctreeNode.mk position size d md (some cs) voxel).getChildIndexForPosition p)
          (hch cs rfl).2 (fun c hc hcwf => ih cs rfl c hc hcwf p)
          (by simpa using (OctreeNode.getChildIndexForPosition_irrel position size d md 0 0
            (some cs) none voxel none p))
  · rw [if_pos h1]
    have hfp : (OctreeNode.mk position size d md children voxel).containsPoint p = false := by
      cases hcp : (OctreeNode.mk position size d md children voxel).containsPoint p with
      | false => rfl
      | true => exact absurd hcp h1
    exact (OctreeNode.traverseList_emit_skip_of_not_inRegion r p _ hwf hfp).symm

/-- C4: `getVertices()` emits geometry only for stored voxels whose `active`
flag is true.  First conjunct: a traversed node whose self-lookup yields a
voxel with `active = false` contributes no vertices, regardless of its own or
its neighbors' occupancy.  Second conjunct: clearing the active flag of the
voxel at `p` (the in-place `voxel.active = false` mutation on the object
returned by `getVoxel`, without re-running `updateActiveStates`) changes the
next extraction exactly by removing the faces of every traversed node whose
region contains `p`; all other emissions are unchanged. -/
theorem getVertices_active_gating :
    (∀ (root n : OctreeNode) (v : Voxel),
        n.getVoxel n.position = some v → v.active = false → emitNode root n = []) ∧
    (∀ (t : VoxelOctree) (p : Vec3), t.root.wfB = true →
        VoxelOctree.verticesList ⟨t.root.updateVoxelActive p false⟩ =
          (t.root.traverseList.map
            (fun m => if m.containsPoint p = true then [] else emitNode t.root m)).flatten) := by
  constructor
  · intro root n v hv ha
    exact emitNode_nil_of_inactive root n v hv ha
  · intro t p hwf
    unfold VoxelOctree.verticesList
    dsimp only
    rw [List.map_congr_left (fun m _ => emitNode_congr_root
      (t.root.updateVoxelActive p false) t.root m
      (fun q => OctreeNode.getVoxel_isNone_updateVoxelActive t.root p false q))]
    rw [OctreeNode.traverseList_map_emit_updateVoxelActive t.root t.root hwf p]

/-- Witness for C4 at concrete inputs: an inactive unit leaf emits nothing,
the single-voxel tree is well-formed, and clearing the active flag at the
stored voxel's position removes exactly its emissions from the extraction. -/
theorem getVertices_active_gating_witness :
    emitNode singleVoxelTree.root
        (OctreeNode.mk ⟨0, 0, 0⟩ 1 2 2 none (some inactiveVoxel)) = [] ∧
    singleVoxelTree.root.wfB = true ∧
    VoxelOctree.verticesList ⟨singleVoxelTree.root.updateVoxelActive ⟨0, 0, 0⟩ false⟩ =
      (singleVoxelTree.root.traverseList.map
        (fun m => if m.containsPoint ⟨0, 0, 0⟩ = true then []
          else emitNode singleVoxelTree.root m)).flatten :=
  ⟨getVertices_active_gating.1 singleVoxelTree.root
      (OctreeNode.mk ⟨0, 0, 0⟩ 1 2 2 none (some inactiveVoxel)) inactiveVoxel
      (by set_option maxRecDepth 1000000 in decide) rfl,
    by set_option maxRecDepth 1000000 in decide,
    getVertices_active_gating.2 singleVoxelTree ⟨0, 0, 0⟩
      (by set_option maxRecDepth 1000000 in decide)⟩
